import Mathlib

/-!
Verification development for the heat repository sources:
* `heat/engine/resources/openstack/neutron/tap_flow.py` (the `TapFlow`
  resource plugin), embedded directly below, and
* the convergence engine exercised by
  `heat/tests/convergence/scenarios/update_user_replace_rollback_update.py`,
  modelled from the specification (the engine itself is not among the
  sources; only the scenario script that drives it is).
-/

namespace Heat

/-! ## TapFlow plugin embedding

The plugin talks to the neutron client.  Its handlers only observe the
results of individual client calls, which either return a value or raise
an exception.  We embed each handler as a function of the abstract call
results, and additionally count how many delete / update requests the
handler issues, so that "no client call is made" claims can be stated. -/

/-- Exceptions visible to the TapFlow handlers: `exceptions.NotFound`
from neutronclient, `exception.ResourceInError` from heat, and anything
else (propagated unchanged). -/
inductive NeutronError where
  | notFound
  | resourceInError
  | otherErr (msg : String)
deriving DecidableEq

/-- `TapFlow.handle_delete`: returns immediately when `resource_id` is
`None`; otherwise issues one `delete_taas_resource` call under
`ignore_not_found` (a `NotFound` outcome is swallowed, anything else
propagates).  The second component counts issued delete requests. -/
def handle_delete (rid : Option String) (del : Except NeutronError Unit) :
    Except NeutronError Unit × Nat :=
  match rid with
  | none => (Except.ok (), 0)
  | some _ =>
    match del with
    | Except.ok _ => (Except.ok (), 1)
    | Except.error NeutronError.notFound => (Except.ok (), 1)
    | Except.error e => (Except.error e, 1)

/-- `TapFlow.check_delete_complete`: `True` straight away when
`resource_id` is `None`; otherwise it checks the resource status and,
when the status check reports `True` or raises `ResourceInError`, issues
a delete request.  A `NotFound` escaping the inner block yields `True`;
otherwise the poll returns `False` (or propagates the error).
`status` is the outcome of `check_taas_resource_status`; `del1` is the
outcome of the first delete request issued in this poll and `del2` of
the second one (only reachable when the first raises `ResourceInError`,
caught by the inner handler which retries the delete).  The second
component counts issued delete requests. -/
def check_delete_complete (rid : Option String)
    (status : Except NeutronError Bool)
    (del1 del2 : Except NeutronError Unit) :
    Except NeutronError Bool × Nat :=
  match rid with
  | none => (Except.ok true, 0)
  | some _ =>
    match status with
    | Except.ok false => (Except.ok false, 0)
    | Except.ok true =>
      match del1 with
      | Except.ok _ => (Except.ok false, 1)
      | Except.error NeutronError.notFound => (Except.ok true, 1)
      | Except.error NeutronError.resourceInError =>
        match del2 with
        | Except.ok _ => (Except.ok false, 2)
        | Except.error NeutronError.notFound => (Except.ok true, 2)
        | Except.error e => (Except.error e, 2)
      | Except.error e => (Except.error e, 1)
    | Except.error NeutronError.resourceInError =>
      match del1 with
      | Except.ok _ => (Except.ok false, 1)
      | Except.error NeutronError.notFound => (Except.ok true, 1)
      | Except.error e => (Except.error e, 1)
    | Except.error NeutronError.notFound => (Except.ok true, 0)
    | Except.error e => (Except.error e, 0)

/-- `TapFlow.handle_update`: when the property diff is empty nothing is
done; otherwise one `update_taas_resource` call is issued (`upd` is its
outcome).  The second component counts issued update requests. -/
def handle_update (propDiff : List (String × String))
    (upd : Except NeutronError Unit) : Except NeutronError Unit × Nat :=
  if propDiff.isEmpty then (Except.ok (), 0) else (upd, 1)

/-- `TapFlow.check_update_complete`: `True` immediately when the
property diff is empty, otherwise the result of one
`check_taas_resource_status` call (`status`).  The second component
counts issued status requests. -/
def check_update_complete (propDiff : List (String × String))
    (status : Except NeutronError Bool) : Except NeutronError Bool × Nat :=
  if propDiff.isEmpty then (Except.ok true, 0) else (status, 1)

/-- The `AllowedValues` constraint of the `direction` property in
`TapFlow.properties_schema`. -/
def direction_allowed_values : List String := ["IN", "OUT", "BOTH"]

/-- The declared default of the `direction` property. -/
def direction_default : String := "BOTH"

/-- Modelled from the spec: the property framework
(`heat.engine.properties`, not among the sources) resolves a property
with a declared default to the supplied value when one is given and to
the default otherwise, and rejects supplied values outside the
schema's `AllowedValues` constraint. -/
def resolve_direction (supplied : Option String) : Except String String :=
  match supplied with
  | none => Except.ok direction_default
  | some v =>
    if v ∈ direction_allowed_values then Except.ok v
    else Except.error "direction not in AllowedValues"

/-- The properties `TapFlow.handle_create` reads (after schema
resolution of everything except `direction`, whose raw supplied value we
keep so that default/constraint handling can be stated). -/
structure TapFlowProps where
  name : Option String
  description : Option String
  port : String
  tapService : String
  direction : Option String
deriving DecidableEq

/-- `TapFlow.handle_create`: builds the `to_client` mapping sent to
`create_taas_resource`, forwarding `direction` as resolved by the
property schema. -/
def handle_create_to_client (p : TapFlowProps) :
    Except String (List (String × Option String)) :=
  match resolve_direction p.direction with
  | Except.error e => Except.error e
  | Except.ok dir =>
    Except.ok [("name", p.name), ("description", p.description),
      ("source_port", some p.port), ("tap_service_id", some p.tapService),
      ("direction", some dir)]

/-- Lookup in the `to_client` mapping built by `handle_create`. -/
def lookupOpt : List (String × Option String) → String → Option (Option String)
  | [], _ => none
  | p :: rest, k => if p.1 = k then some p.2 else lookupOpt rest k

/-! ## Convergence engine

Modelled from the spec (§2–§7): the convergence core (template model,
dependency-graph builder, resource-node state machine, scheduler and
stack controller) is not among the repository sources — only the test
scenario that drives it is — so the definitions below follow the
specification's words. -/

/-- Boolean membership for lists of names (kept as an explicit
recursion so that its unfolding lemmas are ours). -/
def memS : List String → String → Bool
  | [], _ => false
  | y :: l, x => if y = x then true else memS l x

/-- Modelled from the spec: a template property value is a literal, an
attribute reference `attr(resource, attribute)` (`GetAtt` in the
scenario) or a resource reference `ref(resource)` (`GetRes`). -/
inductive PropValue where
  | lit (s : String)
  | getAtt (r a : String)
  | getRes (r : String)
deriving DecidableEq

/-- Modelled from the spec: a resource definition is a property mapping
plus an explicit dependency list (`RsrcDef` in the scenario). -/
structure RsrcDef where
  props : List (String × PropValue)
  deps : List String
deriving DecidableEq

/-- Modelled from the spec: a template maps resource names to resource
definitions. -/
structure Template where
  resources : List (String × RsrcDef)
deriving DecidableEq

def Template.keys (t : Template) : List String := t.resources.map Prod.fst

def findDef : List (String × RsrcDef) → String → Option RsrcDef
  | [], _ => none
  | p :: rest, r => if p.1 = r then some p.2 else findDef rest r

def Template.find (t : Template) (r : String) : Option RsrcDef :=
  findDef t.resources r

/-- The resource referenced by a property value, if any. -/
def refsOfVal : PropValue → Option String
  | PropValue.lit _ => none
  | PropValue.getAtt r _ => some r
  | PropValue.getRes r => some r

/-- Modelled from the spec (§4.2): a resource's dependency edge set is
the union of its explicit dependency list and every resource named in an
`AttributeRef`/`ResourceRef` among its properties. -/
def refsOfDef (d : RsrcDef) : List String :=
  d.deps ++ d.props.filterMap (fun p => refsOfVal p.2)

/-- The dependency edge relation of a template: `tEdge t x y` means the
resource `x` depends on `y`. -/
def tEdge (t : Template) (x y : String) : Bool :=
  match t.find x with
  | some d => memS (refsOfDef d) y
  | none => false

/-- Modelled from the spec (§7): the engine's error taxonomy. -/
inductive EngineError where
  | unknownResource (n : String)
  | cyclicDependency (ns : List String)
  | unresolvedAttribute (r a : String)
  | dependencyFailed (n : String)
  | concurrentOperation
  | alreadyExists
  | noRollbackTarget
  | resourceOperation (n : String)
  | noSuchStack
  | invalidOperation
deriving DecidableEq

/-- A resource may be placed in the topological order once none of its
dependencies is still waiting. -/
def readyForOrder (t : Template) (remaining : List String) (x : String) : Bool :=
  match t.find x with
  | none => true
  | some d => (refsOfDef d).all (fun y => !(memS remaining y))

/-- Modelled from the spec (§4.2): Kahn-style topological sort.  Each
round emits every remaining resource whose dependencies are all
resolved; if a nonempty remainder makes no progress the references form
a cycle and construction fails with `CyclicDependencyError` naming the
stuck members. -/
def kahn (t : Template) : Nat → List String → Except EngineError (List String)
  | _, [] => Except.ok []
  | 0, remaining => Except.error (EngineError.cyclicDependency remaining)
  | fuel + 1, remaining =>
    if remaining.filter (readyForOrder t remaining) = [] then
      Except.error (EngineError.cyclicDependency remaining)
    else
      match kahn t fuel (remaining.filter
          (fun x => !(memS (remaining.filter (readyForOrder t remaining)) x))) with
      | Except.error e => Except.error e
      | Except.ok rest =>
        Except.ok (remaining.filter (readyForOrder t remaining) ++ rest)

/-- Modelled from the spec (§4.2): dependency-graph construction =
cycle detection via topological sort over the template's resources. -/
def buildGraph (t : Template) : Except EngineError (List String) :=
  kahn t t.keys.length t.keys

/-- Modelled from the spec (§4.1): the first resource reference whose
target does not exist in the template, if any. -/
def firstUnknown (t : Template) : Option String :=
  t.resources.findSome? (fun p => (refsOfDef p.2).find? (fun y => !(memS t.keys y)))

/-- Modelled from the spec (§4.1): template validation fails with
`UnknownResourceError` on a dangling reference, and graph construction
fails with `CyclicDependencyError` on a cycle. -/
def validateTemplate (t : Template) : Except EngineError Unit :=
  match firstUnknown t with
  | some u => Except.error (EngineError.unknownResource u)
  | none =>
    match buildGraph t with
    | Except.error e => Except.error e
    | Except.ok _ => Except.ok ()

/-- Modelled from the spec (§4.3/§4.5): the operation dispatched for a
node in a traversal. -/
inductive Op where
  | createOp
  | updateOp
  | deleteOp
deriving DecidableEq

/-- Why a node failed: its own collaborator reported an unrecoverable
error, or a dependency failed (`DependencyFailedError`). -/
inductive FailReason where
  | collabErr
  | depFailed
deriving DecidableEq

/-- Modelled from the spec (§4.3): the per-node lifecycle.  `READY` is
the instant between promotion and dispatch inside one tick and is not a
persisted state. -/
inductive NState where
  | pending
  | inProgress (elapsed : Nat)
  | complete
  | failed (r : FailReason)
deriving DecidableEq

/-- Modelled from the spec (§3): a `ResourceNode` — identity, lifecycle
state, the scheduled operation, the definition being converged to, the
last successfully applied definition, the produced output attributes
(switched atomically on completion), the property values resolved at
dispatch time, and whether the current operation was dispatched. -/
structure Node where
  ident : Nat
  state : NState
  op : Op
  goalDef : RsrcDef
  applied : Option RsrcDef
  attrs : List (String × String)
  resolvedP : List (String × String)
  dispatched : Bool
deriving DecidableEq

/-- Modelled from the spec (§6): the external resource collaborator —
how many ticks an operation takes before its completion check reports,
and whether it then succeeds. -/
structure Collab where
  dur : String → Op → Nat
  okOp : String → Op → Bool

/-- Modelled from the spec (§3/§4.5): a stack — its resource nodes, the
last successfully converged template, the goal template of the active
traversal, whether a traversal is in flight, whether the stack is being
destroyed, and the next fresh node identity. -/
structure Stack where
  nodes : List (String × Node)
  current : Option Template
  goalT : Template
  active : Bool
  destroying : Bool
  nextIdent : Nat
deriving DecidableEq

def findNode : List (String × Node) → String → Option Node
  | [], _ => none
  | p :: rest, r => if p.1 = r then some p.2 else findNode rest r

def lookupStr : List (String × String) → String → Option String
  | [], _ => none
  | p :: rest, r => if p.1 = r then some p.2 else lookupStr rest r

/-- Modelled from the spec (§4.6): attribute resolution at dispatch
time.  A literal resolves to itself, `attr(r, a)` to the referenced
node's current output value for `a`, and `ref(r)` to the referenced
node's identity.  Dependency ordering guarantees the referenced node is
COMPLETE when this is consulted. -/
def resolveVal (ns : List (String × Node)) : PropValue → String
  | PropValue.lit s => s
  | PropValue.getAtt r a =>
    match findNode ns r with
    | some n => (lookupStr n.attrs a).getD ""
    | none => ""
  | PropValue.getRes r =>
    match findNode ns r with
    | some n => toString n.ident
    | none => ""

def resolveProps (ns : List (String × Node)) (d : RsrcDef) :
    List (String × String) :=
  d.props.map (fun p => (p.1, resolveVal ns p.2))

/-- Modelled from the spec (§4.4(a)): polling one IN_PROGRESS node.
When the collaborator reports completion the node becomes COMPLETE (its
applied definition and output attributes switch atomically) or FAILED;
a completed delete removes the node (`none`). -/
def pollNode (c : Collab) (r : String) (n : Node) : Option Node :=
  match n.state with
  | NState.inProgress e =>
    if c.dur r n.op ≤ e + 1 then
      if c.okOp r n.op then
        match n.op with
        | Op.deleteOp => none
        | _ => some { n with state := NState.complete,
                             applied := some n.goalDef, attrs := n.resolvedP }
      else some { n with state := NState.failed FailReason.collabErr }
    else some { n with state := NState.inProgress (e + 1) }
  | _ => some n

def pollPhase (c : Collab) (ns : List (String × Node)) : List (String × Node) :=
  ns.filterMap (fun p => (pollNode c p.1 p.2).map (fun n => (p.1, n)))

/-- Modelled from the spec (§4.5): how one existing node is reconciled
against the goal template.  A COMPLETE node matching its goal definition
is untouched; a drifted COMPLETE node re-enters PENDING for an update; a
resource absent from the goal is scheduled for delete (a never-created
PENDING node is simply dropped); IN_PROGRESS and FAILED nodes are left
alone (in-flight operations finish, failures are never retried by the
core). -/
def reconcileNode (gd : Option RsrcDef) (n : Node) : Option Node :=
  match gd with
  | some d =>
    match n.state with
    | NState.complete =>
      if n.applied = some d then some n
      else some { n with state := NState.pending, op := Op.updateOp,
                         goalDef := d, dispatched := false }
    | NState.pending =>
      if n.applied = some d then some { n with state := NState.complete, goalDef := d }
      else some { n with goalDef := d,
                         op := if n.applied = none then Op.createOp else Op.updateOp,
                         state := NState.pending, dispatched := false }
    | _ => some n
  | none =>
    match n.state with
    | NState.complete =>
      some { n with state := NState.pending, op := Op.deleteOp, dispatched := false }
    | NState.pending =>
      if n.applied = none then none
      else some { n with state := NState.pending, op := Op.deleteOp, dispatched := false }
    | _ => some n

/-- A fresh PENDING node for a resource newly added by the goal
template. -/
def newNode (ident : Nat) (d : RsrcDef) : Node :=
  { ident := ident, state := NState.pending, op := Op.createOp, goalDef := d,
    applied := none, attrs := [], resolvedP := [], dispatched := false }

/-- Nodes are created when first referenced by the graph builder for a
template version: every goal resource without a node gets a fresh
PENDING one (identity drawn from the arena counter). -/
def addMissing : List (String × RsrcDef) → List (String × Node) → Nat →
    List (String × Node) × Nat
  | [], ns, next => (ns, next)
  | (r, d) :: rest, ns, next =>
    match findNode ns r with
    | some _ => addMissing rest ns next
    | none => addMissing rest (ns ++ [(r, newNode next d)]) (next + 1)

/-- Modelled from the spec (§4.2/§4.5): graph reconciliation reuses
existing node identities across template versions and schedules
create/update/delete work from the diff between applied definitions and
the goal template. -/
def reconcile (goal : Template) (ns : List (String × Node)) (next : Nat) :
    List (String × Node) × Nat :=
  addMissing goal.resources
    (ns.filterMap (fun p => (reconcileNode (goal.find p.1) p.2).map (fun n => (p.1, n))))
    next

/-- The dependency targets of a node (edges of the current graph). -/
def nodeRefs (ns : List (String × Node)) (x : String) : List String :=
  match findNode ns x with
  | some n => refsOfDef n.goalDef
  | none => []

/-- Does `x` directly depend on some member of `acc`? -/
def depsOnAny (ns : List (String × Node)) (acc : List String) (x : String) : Bool :=
  (nodeRefs ns x).any (fun y => memS acc y)

/-- Saturation of a name set under "directly depends on a member":
used to collect every transitive dependent of the failed nodes. -/
def satur (ns : List (String × Node)) (names : List String) :
    Nat → List String → List String
  | 0, acc => acc
  | k + 1, acc =>
    if names.filter (fun x => !(memS acc x) && depsOnAny ns acc x) = [] then acc
    else satur ns names k
      (acc ++ names.filter (fun x => !(memS acc x) && depsOnAny ns acc x))

def failedNames (ns : List (String × Node)) : List String :=
  (ns.filter (fun p => match p.2.state with
    | NState.failed _ => true
    | _ => false)).map Prod.fst

/-- Every node that is failed or transitively depends on a failed
node. -/
def doomed (ns : List (String × Node)) : List String :=
  satur ns (ns.map Prod.fst) ns.length (failedNames ns)

def markNode (dm : List String) (r : String) (n : Node) : Node :=
  if n.state = NState.pending && memS dm r then
    { n with state := NState.failed FailReason.depFailed }
  else n

/-- Modelled from the spec (§4.3): a FAILED node immediately fails every
PENDING node that transitively depends on it (`DependencyFailedError`)
without dispatching their operations. -/
def propagate (ns : List (String × Node)) : List (String × Node) :=
  ns.map (fun p => (p.1, markNode (doomed ns) p.1 p.2))

/-- All dependency nodes of a definition are COMPLETE (names without a
node — validated to be absent from the graph — do not block). -/
def depsComplete (ns : List (String × Node)) (d : RsrcDef) : Bool :=
  (refsOfDef d).all (fun y =>
    match findNode ns y with
    | some m => m.state = NState.complete
    | none => true)

/-- Does node `p` (other than `r` itself) still depend on `r`, through
either its goal definition or its applied definition?  Such a node
blocks the deletion of `r`. -/
def blocksDelete (r : String) (p : String × Node) : Bool :=
  !(p.1 = r) &&
    (memS (refsOfDef p.2.goalDef) r ||
      (match p.2.applied with
       | some d => memS (refsOfDef d) r
       | none => false))

/-- Modelled from the spec (§4.5/§5): a delete is dispatched only once
no node that depends on the resource still exists. -/
def deleteReady (ns : List (String × Node)) (r : String) : Bool :=
  !(ns.any (blocksDelete r))

def readyToDispatch (ns : List (String × Node)) (r : String) (n : Node) : Bool :=
  match n.op with
  | Op.deleteOp => deleteReady ns r
  | _ => depsComplete ns n.goalDef

/-- Modelled from the spec (§4.4(b)): a PENDING node whose dependencies
are satisfied is promoted to READY and its operation dispatched — it
becomes IN_PROGRESS with its property values resolved now (§4.6). -/
def dispatchNode (ns : List (String × Node)) (r : String) (n : Node) : Node :=
  if n.state = NState.pending && readyToDispatch ns r n then
    { n with state := NState.inProgress 0, dispatched := true,
             resolvedP := resolveProps ns n.goalDef }
  else n

def dispatchPhase (ns : List (String × Node)) : List (String × Node) :=
  ns.map (fun p => (p.1, dispatchNode ns p.1 p.2))

/-- The traversal has reached its goal: every node is COMPLETE with its
applied definition matching the goal template, and every goal resource
has a node. -/
def convergedB (goal : Template) (ns : List (String × Node)) : Bool :=
  ns.all (fun p =>
    p.2.state = NState.complete &&
      match goal.find p.1 with
      | some d => p.2.applied = some d
      | none => false) &&
  goal.keys.all (fun r => (findNode ns r).isSome)

/-- Modelled from the spec (§4.4): one scheduler tick over a stack —
poll IN_PROGRESS nodes, reconcile the node set against the goal
template, propagate failures, dispatch ready PENDING nodes, then check
for convergence.  On convergence the goal template becomes current (or,
when destroying, the stack ceases to exist — signalled by `true`). -/
def tickStack (c : Collab) (s : Stack) : Stack × Bool :=
  if s.active then
    let ns1 := pollPhase c s.nodes
    let rec2 := reconcile s.goalT ns1 s.nextIdent
    let ns4 := dispatchPhase (propagate rec2.1)
    if convergedB s.goalT ns4 then
      if s.destroying then (s, true)
      else ({ s with nodes := ns4, nextIdent := rec2.2, active := false,
                     current := some s.goalT }, false)
    else ({ s with nodes := ns4, nextIdent := rec2.2 }, false)
  else (s, false)

/-- Modelled from the spec (§6): the engine holds the named stacks. -/
abbrev Engine : Type := List (String × Stack)

def findStack : Engine → String → Option Stack
  | [], _ => none
  | p :: rest, nm => if p.1 = nm then some p.2 else findStack rest nm

def setStack : Engine → String → Stack → Engine
  | [], _, _ => []
  | p :: rest, nm, s =>
    if p.1 = nm then (nm, s) :: rest else p :: setStack rest nm s

def removeStack : Engine → String → Engine
  | [], _ => []
  | p :: rest, nm => if p.1 = nm then rest else p :: removeStack rest nm

/-- Modelled from the spec (§4.5): `create_stack` fails with
`AlreadyExistsError` on an existing stack, validates and builds the
graph, and starts a create traversal with every node PENDING. -/
def create_stack (nm : String) (t : Template) (e : Engine) :
    Except EngineError Engine :=
  match findStack e nm with
  | some _ => Except.error EngineError.alreadyExists
  | none =>
    match validateTemplate t with
    | Except.error err => Except.error err
    | Except.ok _ =>
      let rec0 := reconcile t [] 0
      let s : Stack :=
        { nodes := rec0.1
          current := none
          goalT := t
          active := true
          destroying := false
          nextIdent := rec0.2 }
      Except.ok (e ++ [(nm, s)])

/-- Modelled from the spec (§4.5): `update_stack` fails with
`ConcurrentOperationError` while a traversal is in flight, otherwise
diffs the applied state against the goal template and starts an update
traversal. -/
def update_stack (nm : String) (t : Template) (e : Engine) :
    Except EngineError Engine :=
  match findStack e nm with
  | none => Except.error EngineError.noSuchStack
  | some s =>
    if s.active then Except.error EngineError.concurrentOperation
    else
      match validateTemplate t with
      | Except.error err => Except.error err
      | Except.ok _ =>
        let rec0 := reconcile t s.nodes s.nextIdent
        let s' : Stack :=
          { s with
            nodes := rec0.1
            nextIdent := rec0.2
            goalT := t
            active := true
            destroying := false }
        Except.ok (setStack e nm s')

def anyFailed (ns : List (String × Node)) : Bool :=
  ns.any (fun p => match p.2.state with
    | NState.failed _ => true
    | _ => false)

/-- Rollback is the recovery path: a FAILED node re-enters PENDING
toward the rollback target (a never-created one is dropped). -/
def resetFailedNode (n : Node) : Option Node :=
  match n.state with
  | NState.failed _ =>
    match n.applied with
    | none => none
    | some _ =>
      some { n with state := NState.pending, op := Op.updateOp, dispatched := false }
  | _ => some n

def resetFailed (ns : List (String × Node)) : List (String × Node) :=
  ns.filterMap (fun p => (resetFailedNode p.2).map (fun m => (p.1, m)))

/-- Modelled from the spec (§4.5/§5): `rollback_stack` is valid only
while a prior update's traversal has failed or is incomplete; it
re-issues an update toward the last known-good template (the current
one), superseding the goal without aborting in-flight operations.
Fails with `NoRollbackTargetError` when no good template exists. -/
def rollback_stack (nm : String) (e : Engine) : Except EngineError Engine :=
  match findStack e nm with
  | none => Except.error EngineError.noSuchStack
  | some s =>
    match s.current with
    | none => Except.error EngineError.noRollbackTarget
    | some tg =>
      if s.active || anyFailed s.nodes then
        let rec0 := reconcile tg (resetFailed s.nodes) s.nextIdent
        let s' : Stack :=
          { s with
            nodes := rec0.1
            nextIdent := rec0.2
            goalT := tg
            active := true
            destroying := false }
        Except.ok (setStack e nm s')
      else Except.error EngineError.invalidOperation

/-- Modelled from the spec (§4.5): `delete_stack` schedules the delete
of every resource (reverse dependency order is enforced by dispatch
readiness); deleting an absent stack is a no-op success. -/
def delete_stack (nm : String) (e : Engine) : Engine :=
  match findStack e nm with
  | none => e
  | some s =>
    let rec0 := reconcile (Template.mk []) s.nodes s.nextIdent
    let s' : Stack :=
      { s with
        nodes := rec0.1
        nextIdent := rec0.2
        goalT := Template.mk []
        active := true
        destroying := true }
    setStack e nm s'

/-- One engine tick for one stack; a destroyed stack ceases to exist. -/
def tickEngine (c : Collab) (nm : String) (e : Engine) : Engine :=
  match findStack e nm with
  | none => e
  | some s =>
    match tickStack c s with
    | (s', false) => setStack e nm s'
    | (_, true) => removeStack e nm

/-- Modelled from the spec (§6): `advance` drives convergence forward
by `n` bounded scheduler steps (`noop(n)` in the scenario script). -/
def advance (c : Collab) (nm : String) : Nat → Engine → Engine
  | 0, e => e
  | n + 1, e => advance c nm n (tickEngine c nm e)

/-- Modelled from the spec (§4.5): overall stack status. -/
inductive StackStatus where
  | inProgressS
  | completeS
  | failedS
deriving DecidableEq

def stackStatus (s : Stack) : StackStatus :=
  if anyFailed s.nodes then StackStatus.failedS
  else if s.active then StackStatus.inProgressS
  else StackStatus.completeS

/-- Observer: a resource's output attribute in a stack of the engine. -/
def attrOf (e : Engine) (nm r a : String) : Option String :=
  match findStack e nm with
  | some s =>
    match findNode s.nodes r with
    | some n => lookupStr n.attrs a
    | none => none
  | none => none

def exOk : Except EngineError Engine → Bool
  | Except.ok _ => true
  | Except.error _ => false

def exGet : Except EngineError Engine → Engine
  | Except.ok e => e
  | Except.error _ => []

/-! ## The scenario of `update_user_replace_rollback_update.py` -/

/-- A deterministic collaborator: every operation is accepted and
reports success at its first completion poll. -/
def scnCollab : Collab := ⟨fun _ _ => 1, fun _ _ => true⟩

/-- The scenario template family: `A.a` and `C.b` vary across the
script's three template versions. -/
def scnTemplate (av bv : String) : Template := Template.mk
  [("A", ⟨[("a", PropValue.lit av)], []⟩),
   ("B", ⟨[], []⟩),
   ("C", ⟨[("!a", PropValue.getAtt "A" "a"), ("b", PropValue.lit bv)], []⟩),
   ("D", ⟨[("c", PropValue.getRes "C")], []⟩),
   ("E", ⟨[("ca", PropValue.getAtt "C" "!a")], []⟩)]

def scnT0 : Template := scnTemplate "initial" "val1"

def scnT1 : Template := scnTemplate "updated" "val1"

def scnT2 : Template := scnTemplate "initial" "val2"

def scnE0 : Engine := exGet (create_stack "foo" scnT0 [])

def scnE1 : Engine := advance scnCollab "foo" 5 scnE0

def scnE2 : Engine := exGet (update_stack "foo" scnT1 scnE1)

def scnE3 : Engine := advance scnCollab "foo" 1 scnE2

def scnE4 : Engine := exGet (rollback_stack "foo" scnE3)

def scnE5 : Engine := advance scnCollab "foo" 12 scnE4

def scnE6 : Engine := exGet (update_stack "foo" scnT2 scnE5)

def scnE7 : Engine := advance scnCollab "foo" 7 scnE6

def scnE8 : Engine := delete_stack "foo" scnE7

def scnE9 : Engine := advance scnCollab "foo" 6 scnE8

/-- A node of a named stack, as observed through the engine. -/
def sLookup (e : Engine) (nm x : String) : Option Node :=
  match findStack e nm with
  | some s => findNode s.nodes x
  | none => none

/-- The frame situation of C5: the stack's goal is `t'`, it is not being
destroyed, every node other than `r0` is COMPLETE with its applied
definition equal to its goal definition, and every goal resource other
than `r0` already has a node. -/
def FrameOK (t' : Template) (r0 : String) (s : Stack) : Prop :=
  s.goalT = t' ∧ s.destroying = false ∧
  (∀ x, x ∈ s.nodes.map Prod.fst → x ≠ r0 →
    ∃ n, findNode s.nodes x = some n ∧ n.state = NState.complete ∧
      ∃ d, Template.find t' x = some d ∧ n.applied = some d) ∧
  (∀ p, p ∈ t'.resources → p.1 ≠ r0 → (findNode s.nodes p.1).isSome = true)

/-- Decidable form of the C5 precondition on a node set: every node
other than `r0` is COMPLETE with its applied definition equal to its
definition in `t'`, and every resource of `t'` other than `r0` already
has a node — i.e. the stack is converged and `t'` changes only `r0`. -/
def nodesMatch (t' : Template) (r0 : String) (ns : List (String × Node)) : Bool :=
  ns.all (fun p => p.1 = r0 ||
    (p.2.state = NState.complete &&
      match Template.find t' p.1 with
      | some d => p.2.applied = some d
      | none => false)) &&
  t'.resources.all (fun p => p.1 = r0 || (findNode ns p.1).isSome)

/-- `OrderOK t seen L`: walking `L` left to right, every edge of the
element under consideration points at an already-seen resource (or at a
name that is not a resource of the template).  This is what it means
for `seen ++ L` to list dependencies before dependents. -/
def OrderOK (t : Template) : List String → List String → Prop
  | _, [] => True
  | seen, x :: rest =>
    (∀ y, tEdge t x y = true → y ∈ t.keys → y ∈ seen) ∧
      OrderOK t (seen ++ [x]) rest

/-- A topological order of the template's dependency graph: a
permutation of the resource names in which every resource appears after
all its dependencies. -/
def IsTopoOrder (t : Template) (L : List String) : Prop :=
  L.Perm t.keys ∧ OrderOK t [] L

/-- The template's references contain no cycle. -/
def TAcyclic (t : Template) : Prop :=
  ¬ ∃ x, Relation.TransGen (fun a b => tEdge t a b = true) x x

/-- A two-resource template whose explicit dependency lists form a
cycle. -/
def tCyc : Template :=
  Template.mk [("X", ⟨[], ["Y"]⟩), ("Y", ⟨[], ["X"]⟩)]

/-- `TransDep ns x y`: node `x` transitively depends on node `y` in the
current graph. -/
def TransDep (ns : List (String × Node)) (x y : String) : Prop :=
  Relation.TransGen (fun u v => memS (nodeRefs ns u) v = true) x y

/-- Is the node in a FAILED state? -/
def isFailedN (n : Node) : Bool :=
  match n.state with
  | NState.failed _ => true
  | _ => false

/-- The node list binds each resource name at most once. -/
def NDkeys (ns : List (String × Node)) : Prop := (ns.map Prod.fst).Nodup

/-- The dispatch bookkeeping invariant of a node: a PENDING operation
has not been dispatched, and a node failed with
`DependencyFailedError` never had its operation dispatched. -/
def nodeInv (n : Node) : Prop :=
  (n.state = NState.pending → n.dispatched = false) ∧
  (n.state = NState.failed FailReason.depFailed → n.dispatched = false)

/-- Every node of the list satisfies the dispatch bookkeeping
invariant. -/
def NodesInv (ns : List (String × Node)) : Prop :=
  ∀ r n, findNode ns r = some n → nodeInv n

/-- The invariant of a stack: unique node keys and every node's
dispatch bookkeeping. -/
def StackInv (s : Stack) : Prop :=
  NDkeys s.nodes ∧ NodesInv s.nodes

/-- The invariant of an engine: unique stack names and every stack's
invariant. -/
def EInv (e : Engine) : Prop :=
  (e.map Prod.fst).Nodup ∧ ∀ nm s, findStack e nm = some s → StackInv s

/-- Modelled from the spec (§6): the engine states reachable through
the driving interface — creates, updates, rollbacks, deletes and
ticks. -/
inductive Reach (c : Collab) : Engine → Prop where
  | init : Reach c []
  | createS {nm : String} {t : Template} {e e' : Engine} :
      Reach c e → create_stack nm t e = Except.ok e' → Reach c e'
  | updateS {nm : String} {t : Template} {e e' : Engine} :
      Reach c e → update_stack nm t e = Except.ok e' → Reach c e'
  | rollbackS {nm : String} {e e' : Engine} :
      Reach c e → rollback_stack nm e = Except.ok e' → Reach c e'
  | deleteS {nm : String} {e : Engine} :
      Reach c e → Reach c (delete_stack nm e)
  | tickS {nm : String} {e : Engine} :
      Reach c e → Reach c (tickEngine c nm e)

/-! ## Concrete fixtures used by witnesses -/

/-- A pending-create node for a resource with no references. -/
def wNodeA : Node := newNode 0 ⟨[("a", PropValue.lit "x")], []⟩

/-- A pending-create node whose definition references `A`. -/
def wNodeC : Node := newNode 1 ⟨[("ca", PropValue.getAtt "A" "a")], []⟩

/-- A pending-delete node for `C`. -/
def wNodeCDel : Node :=
  { newNode 2 ⟨[], []⟩ with op := Op.deleteOp, applied := some ⟨[], []⟩ }

/-- A complete node whose definition references `C`. -/
def wNodeD : Node :=
  { newNode 3 ⟨[("c", PropValue.getRes "C")], []⟩ with
    state := NState.complete, applied := some ⟨[("c", PropValue.getRes "C")], []⟩ }

def wNs1 : List (String × Node) := [("A", wNodeA), ("C", wNodeC)]

def wNs2 : List (String × Node) := [("C", wNodeCDel), ("D", wNodeD)]

/-- The stack named `foo` after the rollback of the scenario has
converged (used as a concrete converged stack). -/
def scnS5 : Stack :=
  (findStack scnE5 "foo").getD ⟨[], none, Template.mk [], false, false, 0⟩

/-- A collaborator that reports failure for resource `A` and serves
`B` slowly (three ticks), everything else in one tick. -/
def wfCollab : Collab :=
  Collab.mk (fun r _ => if r = "B" then 3 else 1) (fun r _ => !(r = "A"))

/-- A template with two independent roots `A` and `B` and one
dependent of each (`C` on `A`, `E` on `B`). -/
def wfT : Template := Template.mk
  [("A", RsrcDef.mk [("a", PropValue.lit "x")] []),
   ("B", RsrcDef.mk [] []),
   ("C", RsrcDef.mk [] ["A"]),
   ("E", RsrcDef.mk [] ["B"])]

def wfE0 : Engine := exGet (create_stack "bar" wfT [])

def wfE1 : Engine := tickEngine wfCollab "bar" wfE0

def wfE2 : Engine := tickEngine wfCollab "bar" wfE1

def wfDflt : Stack := Stack.mk [] none (Template.mk []) false false 0

def wfS1 : Stack := (findStack wfE1 "bar").getD wfDflt

def wfS2 : Stack := (findStack wfE2 "bar").getD wfDflt

/-- The `E` node after the failing tick (still PENDING). -/
def wfNE : Node := (findNode wfS2.nodes "E").getD (newNode 9 (RsrcDef.mk [] []))

/-- The `A` node after the failing tick (FAILED by the collaborator). -/
def wfNA : Node := (findNode wfS2.nodes "A").getD (newNode 9 (RsrcDef.mk [] []))

/-- The `C` node after the failing tick (FAILED as a dependent). -/
def wfNC : Node := (findNode wfS2.nodes "C").getD (newNode 9 (RsrcDef.mk [] []))

end Heat

namespace Heat

/-! ## Theorems -/

/-- `findNode` commutes with a key-preserving per-node map. -/
theorem findNode_mapNodes (f : String → Node → Node)
    (ns : List (String × Node)) (r : String) :
    findNode (ns.map (fun p => (p.1, f p.1 p.2))) r
      = (findNode ns r).map (f r) := by
  induction ns with
  | nil => rfl
  | cons p rest ih =>
    simp only [List.map_cons, findNode]
    by_cases h : p.1 = r
    · subst h
      simp
    · simp [h, ih]

/-- A found node is an entry of the list. -/
theorem findNode_mem {ns : List (String × Node)} {x : String} {n : Node} :
    findNode ns x = some n → (x, n) ∈ ns := by
  induction ns with
  | nil => intro h; exact absurd h (by simp [findNode])
  | cons p rest ih =>
    intro h
    unfold findNode at h
    by_cases hp : p.1 = x
    · rw [if_pos hp] at h
      injection h with h'
      have hpx : p = (x, n) := Prod.ext hp h'
      rw [← hpx]
      exact List.mem_cons_self p rest
    · rw [if_neg hp] at h
      exact List.mem_cons_of_mem p (ih h)

/-- `findNode` succeeds exactly on the keys of the list. -/
theorem findNode_isSome_iff {ns : List (String × Node)} {x : String} :
    (findNode ns x).isSome = true ↔ x ∈ ns.map Prod.fst := by
  induction ns with
  | nil => simp [findNode]
  | cons p rest ih =>
    unfold findNode
    by_cases hp : p.1 = x
    · simp [hp]
    · simp [hp, ih, Ne.symm hp]

/-- A kept entry survives a key-preserving `filterMap` as the first
entry for its key. -/
theorem findNode_filterMapNodes_keep (f : String → Node → Option Node)
    (ns : List (String × Node)) (x : String) (n n' : Node) :
    findNode ns x = some n → f x n = some n' →
    findNode (ns.filterMap (fun p => (f p.1 p.2).map (fun m => (p.1, m)))) x
      = some n' := by
  induction ns with
  | nil => intro h; exact absurd h (by simp [findNode])
  | cons p rest ih =>
    intro h hf
    unfold findNode at h
    by_cases hp : p.1 = x
    · rw [if_pos hp] at h
      injection h with h'
      subst hp
      rw [← h'] at hf
      simp only [List.filterMap_cons, hf, Option.map_some', findNode]
      simp
    · rw [if_neg hp] at h
      simp only [List.filterMap_cons]
      rcases hfp : f p.1 p.2 with _ | m
      · exact ih h hf
      · simp only [Option.map_some', findNode]
        rw [if_neg hp]
        exact ih h hf

/-- A key absent from the list stays absent through a key-preserving
`filterMap`. -/
theorem findNode_filterMapNodes_none (f : String → Node → Option Node)
    (ns : List (String × Node)) (x : String) :
    findNode ns x = none →
    findNode (ns.filterMap (fun p => (f p.1 p.2).map (fun m => (p.1, m)))) x
      = none := by
  induction ns with
  | nil => intro _; rfl
  | cons p rest ih =>
    intro h
    unfold findNode at h
    by_cases hp : p.1 = x
    · rw [if_pos hp] at h
      exact absurd h (by simp)
    · rw [if_neg hp] at h
      simp only [List.filterMap_cons]
      rcases hfp : f p.1 p.2 with _ | m
      · exact ih h
      · simp only [Option.map_some', findNode]
        rw [if_neg hp]
        exact ih h

/-- The keys of a key-preserving `filterMap` are among the original
keys. -/
theorem keys_filterMapNodes (f : String → Node → Option Node)
    (ns : List (String × Node)) (x : String) :
    x ∈ (ns.filterMap (fun p => (f p.1 p.2).map (fun m => (p.1, m)))).map Prod.fst →
    x ∈ ns.map Prod.fst := by
  intro hx
  rcases List.mem_map.mp hx with ⟨p', hp', he⟩
  rcases List.mem_filterMap.mp hp' with ⟨p, hp, hf⟩
  rcases hm : f p.1 p.2 with _ | m
  · rw [hm] at hf; exact absurd hf (by simp)
  · rw [hm] at hf
    simp only [Option.map_some'] at hf
    injection hf with hf'
    rw [← hf'] at he
    exact List.mem_map.mpr ⟨p, hp, by rw [← he]⟩

/-- A present key is untouched by appending entries. -/
theorem findNode_append_keep {ns more : List (String × Node)} {x : String}
    {n : Node} :
    findNode ns x = some n → findNode (ns ++ more) x = some n := by
  induction ns with
  | nil => intro h; exact absurd h (by simp [findNode])
  | cons p rest ih =>
    intro h
    unfold findNode at h
    rw [List.cons_append]
    show findNode (p :: (rest ++ more)) x = some n
    rw [show findNode (p :: (rest ++ more)) x
        = if p.1 = x then some p.2 else findNode (rest ++ more) x from rfl]
    by_cases hp : p.1 = x
    · rw [if_pos hp] at h ⊢
      exact h
    · rw [if_neg hp] at h ⊢
      exact ih h

/-- `addMissing` never replaces an existing node. -/
theorem findNode_addMissing_keep (goal : List (String × RsrcDef))
    (ns : List (String × Node)) (next : Nat) (x : String) (n : Node) :
    findNode ns x = some n → findNode (addMissing goal ns next).1 x = some n := by
  induction goal generalizing ns next with
  | nil => intro h; exact h
  | cons q rest ih =>
    intro h
    unfold addMissing
    rcases hq : findNode ns q.1 with _ | m
    · exact ih (ns ++ [(q.1, newNode next q.2)]) (next + 1) (findNode_append_keep h)
    · exact ih ns next h

/-- An absent key stays absent when appending entries that also miss
it. -/
theorem findNode_append_none {ns more : List (String × Node)} {x : String} :
    findNode ns x = none → findNode more x = none →
    findNode (ns ++ more) x = none := by
  induction ns with
  | nil => intro _ h2; exact h2
  | cons p rest ih =>
    intro h h2
    unfold findNode at h
    by_cases hp : p.1 = x
    · rw [if_pos hp] at h
      exact absurd h (by simp)
    · rw [if_neg hp] at h
      rw [List.cons_append]
      show findNode ((p.1, p.2) :: (rest ++ more)) x = none
      unfold findNode
      rw [if_neg hp]
      exact ih h h2

/-- `addMissing` adds nodes only for goal resources. -/
theorem findNode_addMissing_none (goal : List (String × RsrcDef))
    (ns : List (String × Node)) (next : Nat) (x : String) :
    findNode ns x = none → findDef goal x = none →
    findNode (addMissing goal ns next).1 x = none := by
  induction goal generalizing ns next with
  | nil => intro h _; exact h
  | cons q rest ih =>
    intro h hg
    unfold findDef at hg
    by_cases hqx : q.1 = x
    · rw [if_pos hqx] at hg
      exact absurd hg (by simp)
    · rw [if_neg hqx] at hg
      unfold addMissing
      rcases hq : findNode ns q.1 with _ | m
      · exact ih (ns ++ [(q.1, newNode next q.2)]) (next + 1)
          (findNode_append_none h (by simp [findNode, hqx])) hg
      · exact ih ns next h hg

/-- The keys after `addMissing` come from the nodes or the goal. -/
theorem keys_addMissing (goal : List (String × RsrcDef))
    (ns : List (String × Node)) (next : Nat) (x : String) :
    x ∈ (addMissing goal ns next).1.map Prod.fst →
    x ∈ ns.map Prod.fst ∨ x ∈ goal.map Prod.fst := by
  induction goal generalizing ns next with
  | nil => intro h; exact Or.inl h
  | cons q rest ih =>
    intro h
    unfold addMissing at h
    rcases hq : findNode ns q.1 with _ | m
    · rw [hq] at h
      rcases ih (ns ++ [(q.1, newNode next q.2)]) (next + 1) h with h1 | h2
      · rw [List.map_append] at h1
        rcases List.mem_append.mp h1 with h3 | h4
        · exact Or.inl h3
        · have hxq : x = q.1 := by simpa using h4
          refine Or.inr (List.mem_map.mpr ⟨q, List.mem_cons_self q rest, hxq.symm⟩)
      · exact Or.inr (List.mem_map.mp h2 |> fun ⟨p, hp, he⟩ =>
          List.mem_map.mpr ⟨p, List.mem_cons_of_mem q hp, he⟩)
    · rw [hq] at h
      rcases ih ns next h with h1 | h2
      · exact Or.inl h1
      · exact Or.inr (List.mem_map.mp h2 |> fun ⟨p, hp, he⟩ =>
          List.mem_map.mpr ⟨p, List.mem_cons_of_mem q hp, he⟩)

/-- A found definition is an entry of the template. -/
theorem findDef_mem {l : List (String × RsrcDef)} {x : String} {d : RsrcDef} :
    findDef l x = some d → (x, d) ∈ l := by
  induction l with
  | nil => intro h; exact absurd h (by simp [findDef])
  | cons p rest ih =>
    intro h
    unfold findDef at h
    by_cases hp : p.1 = x
    · rw [if_pos hp] at h
      injection h with h'
      have hpx : p = (x, d) := Prod.ext hp h'
      rw [← hpx]
      exact List.mem_cons_self p rest
    · rw [if_neg hp] at h
      exact List.mem_cons_of_mem p (ih h)

theorem findNode_pollPhase_keep (c : Collab) (ns : List (String × Node))
    (x : String) (n n' : Node) :
    findNode ns x = some n → pollNode c x n = some n' →
    findNode (pollPhase c ns) x = some n' :=
  fun h hf => findNode_filterMapNodes_keep (pollNode c) ns x n n' h hf

theorem findNode_pollPhase_none (c : Collab) (ns : List (String × Node))
    (x : String) :
    findNode ns x = none → findNode (pollPhase c ns) x = none :=
  fun h => findNode_filterMapNodes_none (pollNode c) ns x h

theorem findNode_reconcile_keep (goal : Template) (ns : List (String × Node))
    (next : Nat) (x : String) (n n' : Node) :
    findNode ns x = some n → reconcileNode (Template.find goal x) n = some n' →
    findNode (reconcile goal ns next).1 x = some n' := by
  intro h hr
  exact findNode_addMissing_keep goal.resources _ next x n'
    (findNode_filterMapNodes_keep
      (fun y m => reconcileNode (Template.find goal y) m) ns x n n' h hr)

theorem findNode_reconcile_none (goal : Template) (ns : List (String × Node))
    (next : Nat) (x : String) :
    findNode ns x = none → findDef goal.resources x = none →
    findNode (reconcile goal ns next).1 x = none := by
  intro h hg
  exact findNode_addMissing_none goal.resources _ next x
    (findNode_filterMapNodes_none
      (fun y m => reconcileNode (Template.find goal y) m) ns x h) hg

theorem findNode_propagate (ns : List (String × Node)) (x : String) :
    findNode (propagate ns) x = (findNode ns x).map (markNode (doomed ns) x) :=
  findNode_mapNodes (markNode (doomed ns)) ns x

theorem findNode_dispatchPhase (ns : List (String × Node)) (x : String) :
    findNode (dispatchPhase ns) x = (findNode ns x).map (dispatchNode ns x) :=
  findNode_mapNodes (dispatchNode ns) ns x

/-- Characterization of one tick on a non-destroying stack: the stack
is never removed, the node set is the four-phase pipeline when a
traversal is active, and the goal template and destroying flag are
unchanged. -/
theorem tickStack_spec (c : Collab) (s : Stack) (hd : s.destroying = false) :
    (tickStack c s).2 = false
    ∧ (tickStack c s).1.nodes
        = (if s.active then
            dispatchPhase (propagate
              (reconcile s.goalT (pollPhase c s.nodes) s.nextIdent).1)
          else s.nodes)
    ∧ (tickStack c s).1.goalT = s.goalT
    ∧ (tickStack c s).1.destroying = false := by
  unfold tickStack
  by_cases ha : s.active
  · by_cases hc : convergedB s.goalT (dispatchPhase (propagate
        (reconcile s.goalT (pollPhase c s.nodes) s.nextIdent).1)) = true
    · simp [ha, hc, hd]
    · simp [ha, hd]
      rw [if_neg hc]
      simp
  · simp [ha, hd]

/-- From the decidable `nodesMatch` to the per-key facts used in the
frame proofs. -/
theorem nodesMatch_find {t' : Template} {r0 : String}
    {ns : List (String × Node)} (h : nodesMatch t' r0 ns = true) :
    (∀ x, x ∈ ns.map Prod.fst → x ≠ r0 →
      ∃ n, findNode ns x = some n ∧ n.state = NState.complete ∧
        ∃ d, Template.find t' x = some d ∧ n.applied = some d)
    ∧ (∀ p, p ∈ t'.resources → p.1 ≠ r0 → (findNode ns p.1).isSome = true) := by
  unfold nodesMatch at h
  rw [Bool.and_eq_true] at h
  obtain ⟨h1, h2⟩ := h
  constructor
  · intro x hk hxr
    have hs : (findNode ns x).isSome = true := findNode_isSome_iff.mpr hk
    rcases hfx : findNode ns x with _ | n
    · rw [hfx] at hs; exact absurd hs (by simp)
    · refine ⟨n, rfl, ?_⟩
      have hmem := findNode_mem hfx
      have hall := List.all_eq_true.mp h1 (x, n) hmem
      rw [Bool.or_eq_true] at hall
      rcases hall with hx0 | hrest
      · exact absurd (of_decide_eq_true hx0) hxr
      · rw [Bool.and_eq_true] at hrest
        obtain ⟨hcB, hmB⟩ := hrest
        refine ⟨of_decide_eq_true hcB, ?_⟩
        rcases hdf : Template.find t' x with _ | d
        · rw [hdf] at hmB
          exact absurd hmB (by simp)
        · rw [hdf] at hmB
          exact ⟨d, rfl, of_decide_eq_true hmB⟩
  · intro p hp hpr
    have hall := List.all_eq_true.mp h2 p hp
    rw [Bool.or_eq_true] at hall
    rcases hall with hx0 | hs
    · exact absurd (of_decide_eq_true hx0) hpr
    · exact hs

/-- Reconciling against a goal that only changes `r0` leaves every
other key's (first) node untouched. -/
theorem reconcile_keep (t' : Template) (r0 : String)
    (ns : List (String × Node)) (next : Nat)
    (h3 : ∀ x, x ∈ ns.map Prod.fst → x ≠ r0 →
      ∃ n, findNode ns x = some n ∧ n.state = NState.complete ∧
        ∃ d, Template.find t' x = some d ∧ n.applied = some d)
    (h4 : ∀ p, p ∈ t'.resources → p.1 ≠ r0 → (findNode ns p.1).isSome = true)
    (x : String) (hx : x ≠ r0) :
    findNode (reconcile t' ns next).1 x = findNode ns x := by
  rcases hfx : findNode ns x with _ | n
  · have hto : findDef t'.resources x = none := by
      rcases hdef : findDef t'.resources x with _ | d
      · rfl
      · have hmem : (x, d) ∈ t'.resources := findDef_mem hdef
        have h5 := h4 (x, d) hmem hx
        rw [show ((x, d) : String × RsrcDef).1 = x from rfl, hfx] at h5
        exact absurd h5 (by simp)
    exact findNode_reconcile_none t' ns next x hfx hto
  · have hks : x ∈ ns.map Prod.fst :=
      findNode_isSome_iff.mp (by rw [hfx]; rfl)
    obtain ⟨n0, hn0, hcomp, d, hdf, happ⟩ := h3 x hks hx
    rw [hfx] at hn0
    injection hn0 with he
    subst he
    refine findNode_reconcile_keep t' ns next x n n hfx ?_
    rw [hdf]
    simp [reconcileNode, hcomp, happ]

/-- One tick leaves every node other than `r0` untouched when the stack
is in the C5 frame situation. -/
theorem tickStack_keep (c : Collab) (t' : Template) (r0 : String) (s : Stack)
    (hF : FrameOK t' r0 s) (x : String) (hx : x ≠ r0) :
    findNode (tickStack c s).1.nodes x = findNode s.nodes x := by
  obtain ⟨hg, hd, h3, h4⟩ := hF
  have hspec := tickStack_spec c s hd
  rw [hspec.2.1]
  by_cases ha : s.active
  · rw [if_pos ha]
    have hpollkeep : ∀ y, y ≠ r0 →
        findNode (pollPhase c s.nodes) y = findNode s.nodes y := by
      intro y hy
      rcases hfy : findNode s.nodes y with _ | n
      · exact findNode_pollPhase_none c s.nodes y hfy
      · have hky : y ∈ s.nodes.map Prod.fst :=
          findNode_isSome_iff.mp (by rw [hfy]; rfl)
        obtain ⟨n0, hn0, hcomp, d, hdf, happ⟩ := h3 y hky hy
        rw [hfy] at hn0
        injection hn0 with he
        subst he
        exact findNode_pollPhase_keep c s.nodes y n n hfy (by simp [pollNode, hcomp])
    have h3p : ∀ y, y ∈ (pollPhase c s.nodes).map Prod.fst → y ≠ r0 →
        ∃ n, findNode (pollPhase c s.nodes) y = some n ∧
          n.state = NState.complete ∧
          ∃ d, Template.find t' y = some d ∧ n.applied = some d := by
      intro y hky hy
      have hsome : (findNode (pollPhase c s.nodes) y).isSome = true :=
        findNode_isSome_iff.mpr hky
      rw [hpollkeep y hy] at hsome
      have hkys : y ∈ s.nodes.map Prod.fst := findNode_isSome_iff.mp hsome
      obtain ⟨n, hn, hc, d, hdf, ha2⟩ := h3 y hkys hy
      exact ⟨n, by rw [hpollkeep y hy]; exact hn, hc, d, hdf, ha2⟩
    have h4p : ∀ p, p ∈ t'.resources → p.1 ≠ r0 →
        (findNode (pollPhase c s.nodes) p.1).isSome = true := by
      intro p hp hpr
      rw [hpollkeep p.1 hpr]
      exact h4 p hp hpr
    have hrec : findNode (reconcile s.goalT (pollPhase c s.nodes) s.nextIdent).1 x
        = findNode (pollPhase c s.nodes) x := by
      rw [hg]
      exact reconcile_keep t' r0 (pollPhase c s.nodes) s.nextIdent h3p h4p x hx
    rw [findNode_dispatchPhase, findNode_propagate, hrec, hpollkeep x hx]
    rcases hfx : findNode s.nodes x with _ | n
    · rfl
    · have hkx : x ∈ s.nodes.map Prod.fst :=
        findNode_isSome_iff.mp (by rw [hfx]; rfl)
      obtain ⟨n0, hn0, hcomp, d, hdf, happ⟩ := h3 x hkx hx
      rw [hfx] at hn0
      injection hn0 with he
      subst he
      simp [markNode, dispatchNode, hcomp]
  · rw [if_neg ha]

/-- One tick preserves the C5 frame situation. -/
theorem tickStack_frame (c : Collab) (t' : Template) (r0 : String) (s : Stack)
    (hF : FrameOK t' r0 s) : FrameOK t' r0 (tickStack c s).1 := by
  have hspec := tickStack_spec c s hF.2.1
  refine ⟨by rw [hspec.2.2.1]; exact hF.1, hspec.2.2.2, ?_, ?_⟩
  · intro x hxk hxr
    have hkeep := tickStack_keep c t' r0 s hF x hxr
    have hsome : (findNode (tickStack c s).1.nodes x).isSome = true :=
      findNode_isSome_iff.mpr hxk
    rw [hkeep] at hsome
    have hxk' : x ∈ s.nodes.map Prod.fst := findNode_isSome_iff.mp hsome
    obtain ⟨n, hn, hc, d, hdf, ha2⟩ := hF.2.2.1 x hxk' hxr
    exact ⟨n, by rw [hkeep]; exact hn, hc, d, hdf, ha2⟩
  · intro p hp hpr
    rw [tickStack_keep c t' r0 s hF p.1 hpr]
    exact hF.2.2.2 p hp hpr

/-- Replacing a stack makes it the one found. -/
theorem findStack_setStack (e : Engine) (nm : String) (s s' : Stack) :
    findStack e nm = some s → findStack (setStack e nm s') nm = some s' := by
  induction e with
  | nil => intro h; exact absurd h (by simp [findStack])
  | cons p rest ih =>
    intro h
    unfold findStack at h
    unfold setStack
    by_cases hp : p.1 = nm
    · rw [if_pos hp]
      show findStack ((nm, s') :: rest) nm = some s'
      rw [show findStack ((nm, s') :: rest) nm
          = if nm = nm then some s' else findStack rest nm from rfl]
      rw [if_pos rfl]
    · rw [if_neg hp] at h
      rw [if_neg hp]
      rw [show findStack (p :: setStack rest nm s') nm
          = if p.1 = nm then some p.2 else findStack (setStack rest nm s') nm from rfl]
      rw [if_neg hp]
      exact ih h

/-- A tick that does not remove the stack is a stack replacement. -/
theorem tickEngine_eq (c : Collab) (nm : String) (e : Engine) (s : Stack)
    (h : findStack e nm = some s) (h2 : (tickStack c s).2 = false) :
    tickEngine c nm e = setStack e nm (tickStack c s).1 := by
  rcases hts : tickStack c s with ⟨s', b⟩
  rw [hts] at h2
  simp only at h2
  subst h2
  unfold tickEngine
  rw [h]
  show (match tickStack c s with
      | (s', false) => setStack e nm s'
      | (_, true) => removeStack e nm) = setStack e nm (s', false).1
  rw [hts]

/-- Advancing any number of ticks leaves every node other than `r0`
untouched in the C5 frame situation. -/
theorem advance_keep (c : Collab) (t' : Template) (r0 nm : String) :
    ∀ (k : Nat) (e : Engine) (s : Stack), findStack e nm = some s →
    FrameOK t' r0 s →
    ∀ x, x ≠ r0 → sLookup (advance c nm k e) nm x = findNode s.nodes x := by
  intro k
  induction k with
  | zero =>
    intro e s hf _ x _
    show sLookup e nm x = findNode s.nodes x
    unfold sLookup
    rw [hf]
  | succ k ih =>
    intro e s hf hF x hx
    have hspec := tickStack_spec c s hF.2.1
    have hte : tickEngine c nm e = setStack e nm (tickStack c s).1 :=
      tickEngine_eq c nm e s hf hspec.1
    have hf' : findStack (tickEngine c nm e) nm = some (tickStack c s).1 := by
      rw [hte]
      exact findStack_setStack e nm s _ hf
    have hF' : FrameOK t' r0 (tickStack c s).1 := tickStack_frame c t' r0 s hF
    show sLookup (advance c nm k (tickEngine c nm e)) nm x = findNode s.nodes x
    rw [ih (tickEngine c nm e) _ hf' hF' x hx]
    exact tickStack_keep c t' r0 s hF x hx

/-! ### Dependency-graph construction (C2) -/

theorem memS_iff {l : List String} {x : String} : memS l x = true ↔ x ∈ l := by
  induction l with
  | nil => simp [memS]
  | cons y rest ih =>
    unfold memS
    by_cases hy : y = x
    · simp [hy]
    · simp only [if_neg hy, ih, List.mem_cons]
      constructor
      · exact fun h => Or.inr h
      · intro h
        rcases h with h | h
        · exact absurd h.symm hy
        · exact h

/-- Only resources of the template have outgoing edges. -/
theorem tEdge_key {t : Template} {x y : String} (h : tEdge t x y = true) :
    x ∈ t.keys := by
  unfold tEdge at h
  rcases hf : Template.find t x with _ | d
  · rw [hf] at h
    exact absurd h (by simp)
  · exact List.mem_map.mpr ⟨(x, d), findDef_mem hf, rfl⟩

/-- A ready resource has no edge into the remaining set. -/
theorem ready_true_not_mem {t : Template} {remaining : List String} {x y : String}
    (h : readyForOrder t remaining x = true) (he : tEdge t x y = true) :
    y ∉ remaining := by
  unfold readyForOrder at h
  unfold tEdge at he
  rcases hf : Template.find t x with _ | d
  · rw [hf] at he
    exact absurd he (by simp)
  · rw [hf] at h he
    intro hy
    have hall := List.all_eq_true.mp h y (memS_iff.mp he)
    rw [memS_iff.mpr hy] at hall
    exact absurd hall (by simp)

/-- A non-ready resource has an edge into the remaining set. -/
theorem ready_false_edge {t : Template} {remaining : List String} {x : String}
    (h : readyForOrder t remaining x = false) :
    ∃ y, tEdge t x y = true ∧ y ∈ remaining := by
  unfold readyForOrder at h
  rcases hf : Template.find t x with _ | d
  · rw [hf] at h
    exact absurd h (by simp)
  · rw [hf] at h
    obtain ⟨y, hy, hny⟩ := List.all_eq_false.mp h
    refine ⟨y, ?_, ?_⟩
    · unfold tEdge
      rw [hf]
      exact memS_iff.mpr hy
    · have hm : memS remaining y = true := by
        revert hny
        cases hmem : memS remaining y <;> simp
      exact memS_iff.mp hm

theorem length_filter_lt (p : String → Bool) :
    ∀ (l : List String) (x : String), x ∈ l → p x = false →
      (l.filter p).length < l.length := by
  intro l
  induction l with
  | nil => intro x hx _; exact absurd hx (List.not_mem_nil x)
  | cons a l' ih =>
    intro x hx hpx
    rcases List.mem_cons.mp hx with h | h
    · have hpa : p a = false := by rw [← h]; exact hpx
      rw [List.filter_cons, hpa]
      simp only [Bool.false_eq_true, if_false, List.length_cons]
      exact Nat.lt_succ_of_le (List.length_filter_le p l')
    · rw [List.filter_cons]
      cases hpa : p a
      · simp only [Bool.false_eq_true, if_false, List.length_cons]
        exact Nat.lt_succ_of_le (List.length_filter_le p l')
      · simp only [if_true, List.length_cons]
        exact Nat.succ_lt_succ (ih x h hpx)

theorem kahn_nil_eq (t : Template) (fuel : Nat) :
    kahn t fuel [] = Except.ok [] := by
  cases fuel <;> rfl

theorem kahn_succ_eq (t : Template) (f : Nat) (r : String) (rest : List String) :
    kahn t (f + 1) (r :: rest)
      = (if (r :: rest).filter (readyForOrder t (r :: rest)) = [] then
          Except.error (EngineError.cyclicDependency (r :: rest))
        else
          match kahn t f ((r :: rest).filter
              (fun x => !(memS ((r :: rest).filter (readyForOrder t (r :: rest))) x))) with
          | Except.error e => Except.error e
          | Except.ok rest' =>
            Except.ok ((r :: rest).filter (readyForOrder t (r :: rest)) ++ rest')) := rfl

/-- Successful Kahn output is a permutation of the input names. -/
theorem kahn_perm (t : Template) :
    ∀ (fuel : Nat) (remaining L : List String),
      kahn t fuel remaining = Except.ok L → L.Perm remaining := by
  intro fuel
  induction fuel with
  | zero =>
    intro remaining L h
    rcases remaining with _ | ⟨r, rest⟩
    · rw [kahn_nil_eq] at h
      injection h with h'
      rw [← h']
    · exact absurd h (by simp [kahn])
  | succ f ih =>
    intro remaining L h
    rcases remaining with _ | ⟨r, rest⟩
    · rw [kahn_nil_eq] at h
      injection h with h'
      rw [← h']
    · rw [kahn_succ_eq] at h
      by_cases hrs : (r :: rest).filter (readyForOrder t (r :: rest)) = []
      · rw [if_pos hrs] at h
        exact absurd h (by simp)
      · rw [if_neg hrs] at h
        rcases hk : kahn t f ((r :: rest).filter
            (fun x => !(memS ((r :: rest).filter (readyForOrder t (r :: rest))) x)))
            with e1 | rest'
        · rw [hk] at h
          exact absurd h (by simp)
        · rw [hk] at h
          injection h with h'
          rw [← h']
          have hperm := ih _ _ hk
          have hcong : (r :: rest).filter
              (fun x => !(memS ((r :: rest).filter (readyForOrder t (r :: rest))) x))
              = (r :: rest).filter (fun x => !(readyForOrder t (r :: rest) x)) := by
            apply List.filter_congr
            intro x hx
            have : memS ((r :: rest).filter (readyForOrder t (r :: rest))) x
                = readyForOrder t (r :: rest) x := by
              cases hr2 : readyForOrder t (r :: rest) x
              · cases hm : memS ((r :: rest).filter (readyForOrder t (r :: rest))) x
                · rfl
                · have := (List.mem_filter.mp (memS_iff.mp hm)).2
                  rw [hr2] at this
                  exact this.symm
              · exact memS_iff.mpr (List.mem_filter.mpr ⟨hx, hr2⟩)
            rw [this]
          rw [hcong] at hperm
          have hfin := List.filter_append_perm
            (readyForOrder t (r :: rest)) (r :: rest)
          exact ((hperm.append_left _).trans hfin)

/-! ### Topological-order soundness -/

theorem orderOK_mono (t : Template) :
    ∀ (l seen seen' : List String), (∀ y, y ∈ seen → y ∈ seen') →
      OrderOK t seen l → OrderOK t seen' l := by
  intro l
  induction l with
  | nil => intro seen seen' _ _; exact trivial
  | cons x rest ih =>
    intro seen seen' hs h
    obtain ⟨h1, h2⟩ := h
    refine ⟨fun y hy hyk => hs y (h1 y hy hyk), ?_⟩
    refine ih (seen ++ [x]) (seen' ++ [x]) ?_ h2
    intro y hy
    rcases List.mem_append.mp hy with h3 | h3
    · exact List.mem_append.mpr (Or.inl (hs y h3))
    · exact List.mem_append.mpr (Or.inr h3)

theorem orderOK_of_all (t : Template) :
    ∀ (l seen : List String),
      (∀ x, x ∈ l → ∀ y, tEdge t x y = true → y ∈ t.keys → y ∈ seen) →
      OrderOK t seen l := by
  intro l
  induction l with
  | nil => intro seen _; exact trivial
  | cons x rest ih =>
    intro seen h
    refine ⟨h x (List.mem_cons_self x rest), ?_⟩
    refine orderOK_mono t rest seen (seen ++ [x])
      (fun y hy => List.mem_append.mpr (Or.inl hy)) ?_
    exact ih seen (fun x' hx' => h x' (List.mem_cons_of_mem x hx'))

theorem orderOK_append (t : Template) :
    ∀ (l1 l2 seen : List String),
      OrderOK t seen l1 → OrderOK t (seen ++ l1) l2 → OrderOK t seen (l1 ++ l2) := by
  intro l1
  induction l1 with
  | nil =>
    intro l2 seen _ h2
    simpa using h2
  | cons x rest ih =>
    intro l2 seen h1 h2
    obtain ⟨h1a, h1b⟩ := h1
    refine ⟨h1a, ?_⟩
    refine ih l2 (seen ++ [x]) h1b ?_
    have he : seen ++ x :: rest = (seen ++ [x]) ++ rest := by simp
    rw [he] at h2
    exact h2

/-- Successful Kahn output lists dependencies before dependents. -/
theorem kahn_orderOK (t : Template) :
    ∀ (fuel : Nat) (remaining seen L : List String),
      (∀ y, y ∈ t.keys → y ∉ remaining → y ∈ seen) →
      kahn t fuel remaining = Except.ok L → OrderOK t seen L := by
  intro fuel
  induction fuel with
  | zero =>
    intro remaining seen L _ h
    rcases remaining with _ | ⟨r, rest⟩
    · rw [kahn_nil_eq] at h
      injection h with h'
      rw [← h']
      exact trivial
    · exact absurd h (by simp [kahn])
  | succ f ih =>
    intro remaining seen L hcover h
    rcases remaining with _ | ⟨r, rest⟩
    · rw [kahn_nil_eq] at h
      injection h with h'
      rw [← h']
      exact trivial
    · rw [kahn_succ_eq] at h
      by_cases hrs : (r :: rest).filter (readyForOrder t (r :: rest)) = []
      · rw [if_pos hrs] at h
        exact absurd h (by simp)
      · rw [if_neg hrs] at h
        rcases hk : kahn t f ((r :: rest).filter
            (fun x => !(memS ((r :: rest).filter (readyForOrder t (r :: rest))) x)))
            with e1 | rest'
        · rw [hk] at h
          exact absurd h (by simp)
        · rw [hk] at h
          injection h with h'
          rw [← h']
          refine orderOK_append t _ rest' seen ?_ ?_
          · refine orderOK_of_all t _ seen ?_
            intro x hx y hedge hyk
            have hready : readyForOrder t (r :: rest) x = true :=
              (List.mem_filter.mp hx).2
            exact hcover y hyk (ready_true_not_mem hready hedge)
          · refine ih _ _ rest' ?_ hk
            intro y hyk hyrem
            by_cases hyr : y ∈ (r :: rest)
            · have hm : memS ((r :: rest).filter (readyForOrder t (r :: rest))) y
                  = true := by
                by_contra hcon
                apply hyrem
                refine List.mem_filter.mpr ⟨hyr, ?_⟩
                cases hm2 : memS ((r :: rest).filter (readyForOrder t (r :: rest))) y
                · rfl
                · exact absurd hm2 hcon
              exact List.mem_append.mpr (Or.inr (memS_iff.mp hm))
            · exact List.mem_append.mpr (Or.inl (hcover y hyk hyr))

/-! ### Cycles (C2) -/

/-- In a set where every member has an out-edge into the set, walks of
any length exist. -/
theorem buildWalk (R : String → String → Prop) (S : List String)
    (hstep : ∀ x ∈ S, ∃ y ∈ S, R x y) :
    ∀ (n : Nat) (x : String), x ∈ S →
      ∃ l, l.length = n ∧ List.Chain R x l ∧ ∀ y ∈ l, y ∈ S := by
  intro n
  induction n with
  | zero =>
    intro x _
    exact ⟨[], rfl, List.Chain.nil, by simp⟩
  | succ k ih =>
    intro x hx
    obtain ⟨y, hy, hr⟩ := hstep x hx
    obtain ⟨l, hlen, hch, hmem⟩ := ih y hy
    refine ⟨y :: l, by simp [hlen], List.Chain.cons hr hch, ?_⟩
    intro z hz
    rcases List.mem_cons.mp hz with h | h
    · rw [h]; exact hy
    · exact hmem z h

/-- Anything on a chain is transitively reachable from its head. -/
theorem chain_transGen (R : String → String → Prop) :
    ∀ (l : List String) (x z : String), List.Chain R x l → z ∈ l →
      Relation.TransGen R x z := by
  intro l
  induction l with
  | nil => intro x z _ hz; exact absurd hz (List.not_mem_nil z)
  | cons y rest ih =>
    intro x z hch hz
    obtain ⟨hxy, hrest⟩ := List.chain_cons.mp hch
    rcases List.mem_cons.mp hz with h | h
    · rw [h]
      exact Relation.TransGen.single hxy
    · exact Relation.TransGen.head hxy (ih y z hrest h)

/-- A non-nodup list decomposes around a repeated element. -/
theorem exists_dup_decomp : ∀ (m : List String), ¬m.Nodup →
    ∃ z A B C, m = A ++ (z :: (B ++ (z :: C))) := by
  intro m
  induction m with
  | nil => intro h; exact absurd List.nodup_nil h
  | cons x l ih =>
    intro h
    by_cases hx : x ∈ l
    · obtain ⟨B, C, hBC⟩ := List.append_of_mem hx
      exact ⟨x, [], B, C, by rw [hBC]; simp⟩
    · have hnl : ¬l.Nodup := fun hnd => h (List.nodup_cons.mpr ⟨hx, hnd⟩)
      obtain ⟨z, A, B, C, hd⟩ := ih hnl
      exact ⟨z, x :: A, B, C, by rw [hd]; simp⟩

/-- Every element of a chain except the final endpoint has a successor
within the walk. -/
theorem chain_succ (R : String → String → Prop) :
    ∀ (l : List String) (a b : String), List.Chain R a (l ++ [b]) →
      ∀ x ∈ a :: l, ∃ y, y ∈ (a :: l) ++ [b] ∧ R x y := by
  intro l
  induction l with
  | nil =>
    intro a b hch x hx
    have hab : R a b := (List.chain_cons.mp hch).1
    have hxa : x = a := by simpa using hx
    exact ⟨b, by simp, by rw [hxa]; exact hab⟩
  | cons c l' ih =>
    intro a b hch x hx
    have hch' : List.Chain R a (c :: (l' ++ [b])) := hch
    obtain ⟨hac, hrest⟩ := List.chain_cons.mp hch'
    rcases List.mem_cons.mp hx with h | h
    · exact ⟨c, by simp, by rw [h]; exact hac⟩
    · obtain ⟨y, hy, hr⟩ := ih c b hrest x h
      refine ⟨y, ?_, hr⟩
      rcases List.mem_append.mp hy with h2 | h2
      · exact List.mem_append.mpr (Or.inl (List.mem_cons_of_mem a h2))
      · exact List.mem_append.mpr (Or.inr h2)

/-- A transitive step decomposes into a chain. -/
theorem transGen_chain (R : String → String → Prop) :
    ∀ (a b : String), Relation.TransGen R a b →
      ∃ l, List.Chain R a (l ++ [b]) := by
  intro a b h
  induction h with
  | single hr => exact ⟨[], List.Chain.cons hr List.Chain.nil⟩
  | @tail p q hT hr ih =>
    obtain ⟨l, hch⟩ := ih
    refine ⟨l ++ [p], ?_⟩
    have he : (l ++ [p]) ++ [q] = l ++ (p :: [q]) := by simp
    rw [he]
    exact List.chain_split.mpr ⟨hch, List.Chain.cons hr List.Chain.nil⟩

/-- A cycle yields a closed walk whose members all have out-edges inside
the walk, and are all resources of the template. -/
theorem cycle_walk (t : Template) (z : String)
    (h : Relation.TransGen (fun a b => tEdge t a b = true) z z) :
    ∃ W, W ≠ [] ∧ (∀ x ∈ W, ∃ y ∈ W, tEdge t x y = true)
      ∧ ∀ x ∈ W, x ∈ t.keys := by
  obtain ⟨l, hch⟩ := transGen_chain (fun a b => tEdge t a b = true) z z h
  have hout : ∀ x ∈ (z :: l) ++ [z], ∃ y ∈ (z :: l) ++ [z], tEdge t x y = true := by
    intro x hx
    rcases List.mem_append.mp hx with h1 | h1
    · obtain ⟨y, hy, hr⟩ := chain_succ (fun a b => tEdge t a b = true) l z z hch x h1
      exact ⟨y, hy, hr⟩
    · have hxz : x = z := by simpa using h1
      subst hxz
      obtain ⟨y, hy, hr⟩ := chain_succ (fun a b => tEdge t a b = true) l x x hch x
        (List.mem_cons_self x l)
      exact ⟨y, hy, hr⟩
  refine ⟨(z :: l) ++ [z], by simp, hout, ?_⟩
  intro x hx
  obtain ⟨y, _, he⟩ := hout x hx
  exact tEdge_key he

/-- A stuck remainder contains a cycle (pigeonhole over walks). -/
theorem stuck_cycle (t : Template) (S : List String) (hne : S ≠ [])
    (hstep : ∀ x ∈ S, ∃ y ∈ S, tEdge t x y = true) :
    ∃ z, Relation.TransGen (fun a b => tEdge t a b = true) z z := by
  rcases hS : S with _ | ⟨s0, S'⟩
  · exact absurd hS hne
  · subst hS
    obtain ⟨l, hlen, hch, hmem⟩ :=
      buildWalk (fun a b => tEdge t a b = true) (s0 :: S') hstep
        ((s0 :: S').length + 1) s0 (List.mem_cons_self s0 S')
    have hsubset : ∀ y ∈ s0 :: l, y ∈ s0 :: S' := by
      intro y hy
      rcases List.mem_cons.mp hy with h | h
      · rw [h]; exact List.mem_cons_self s0 S'
      · exact hmem y h
    have hnd : ¬(s0 :: l).Nodup := by
      intro hnd
      have hsub := List.subperm_of_subset hnd hsubset
      have hle := hsub.length_le
      rw [List.length_cons, hlen] at hle
      omega
    obtain ⟨z, A, B, C, hd⟩ := exists_dup_decomp (s0 :: l) hnd
    rcases A with _ | ⟨a0, A'⟩
    · simp only [List.nil_append] at hd
      injection hd with h1 h2
      refine ⟨z, ?_⟩
      rw [← h1]
      refine chain_transGen (fun a b => tEdge t a b = true) l s0 s0 hch ?_
      rw [h2, h1]
      exact List.mem_append.mpr (Or.inr (List.mem_cons_self z C))
    · rw [List.cons_append] at hd
      injection hd with h1 h2
      have hch2 : List.Chain (fun a b => tEdge t a b = true) z (B ++ (z :: C)) := by
        have hch' : List.Chain (fun a b => tEdge t a b = true) s0
            (A' ++ (z :: (B ++ (z :: C)))) := by rw [← h2]; exact hch
        exact (List.chain_split.mp hch').2
      exact ⟨z, chain_transGen (fun a b => tEdge t a b = true) (B ++ (z :: C)) z z hch2
        (List.mem_append.mpr (Or.inr (List.mem_cons_self z C)))⟩

/-- A Kahn failure (with sufficient fuel) exhibits a cycle. -/
theorem kahn_err_cyclic (t : Template) :
    ∀ (fuel : Nat) (remaining : List String) (e0 : EngineError),
      remaining.length ≤ fuel → kahn t fuel remaining = Except.error e0 →
      ∃ z, Relation.TransGen (fun a b => tEdge t a b = true) z z := by
  intro fuel
  induction fuel with
  | zero =>
    intro remaining e0 hlen h
    rcases remaining with _ | ⟨r, rest⟩
    · rw [kahn_nil_eq] at h
      exact absurd h (by simp)
    · exact absurd hlen (by simp)
  | succ f ih =>
    intro remaining e0 hlen h
    rcases remaining with _ | ⟨r, rest⟩
    · rw [kahn_nil_eq] at h
      exact absurd h (by simp)
    · by_cases hrs : (r :: rest).filter (readyForOrder t (r :: rest)) = []
      · refine stuck_cycle t (r :: rest) (by simp) ?_
        intro x hx
        have hnr : readyForOrder t (r :: rest) x = false := by
          cases hr2 : readyForOrder t (r :: rest) x
          · rfl
          · exact absurd (List.mem_filter.mpr ⟨hx, hr2⟩) (by rw [hrs]; simp)
        obtain ⟨y, hyr, hy⟩ := ready_false_edge hnr
        exact ⟨y, hy, hyr⟩
      · rw [kahn_succ_eq, if_neg hrs] at h
        rcases hk : kahn t f ((r :: rest).filter
            (fun x => !(memS ((r :: rest).filter (readyForOrder t (r :: rest))) x)))
            with e1 | rest'
        · refine ih _ e1 ?_ hk
          obtain ⟨y, hy⟩ := List.exists_mem_of_ne_nil _ hrs
          have hyrem : y ∈ (r :: rest) := (List.mem_filter.mp hy).1
          have hpy : (fun x =>
              !(memS ((r :: rest).filter (readyForOrder t (r :: rest))) x)) y
                = false := by
            have : memS ((r :: rest).filter (readyForOrder t (r :: rest))) y = true :=
              memS_iff.mpr hy
            simp [this]
          have hlt := length_filter_lt
            (fun x => !(memS ((r :: rest).filter (readyForOrder t (r :: rest))) x))
            (r :: rest) y hyrem hpy
          omega
        · rw [hk] at h
          exact absurd h (by simp)

/-- A cycle that persists in the remaining set forces Kahn to fail with
`CyclicDependencyError`. -/
theorem kahn_cycle_err (t : Template) (W : List String) (hWne : W ≠ [])
    (hstep : ∀ x ∈ W, ∃ y ∈ W, tEdge t x y = true) :
    ∀ (fuel : Nat) (remaining : List String), (∀ x ∈ W, x ∈ remaining) →
      ∃ ms, kahn t fuel remaining = Except.error (EngineError.cyclicDependency ms) := by
  have hWmem : ∃ w, w ∈ W := by
    rcases W with _ | ⟨w, W'⟩
    · exact absurd rfl hWne
    · exact ⟨w, List.mem_cons_self w W'⟩
  intro fuel
  induction fuel with
  | zero =>
    intro remaining hsub
    rcases remaining with _ | ⟨r, rest⟩
    · obtain ⟨w, hw⟩ := hWmem
      exact absurd (hsub w hw) (List.not_mem_nil w)
    · exact ⟨r :: rest, rfl⟩
  | succ f ih =>
    intro remaining hsub
    rcases remaining with _ | ⟨r, rest⟩
    · obtain ⟨w, hw⟩ := hWmem
      exact absurd (hsub w hw) (List.not_mem_nil w)
    · by_cases hrs : (r :: rest).filter (readyForOrder t (r :: rest)) = []
      · exact ⟨r :: rest, by rw [kahn_succ_eq, if_pos hrs]⟩
      · have hsub' : ∀ x ∈ W, x ∈ (r :: rest).filter
            (fun v => !(memS ((r :: rest).filter (readyForOrder t (r :: rest))) v)) := by
          intro x hx
          refine List.mem_filter.mpr ⟨hsub x hx, ?_⟩
          obtain ⟨y, hy, he⟩ := hstep x hx
          have hnr : readyForOrder t (r :: rest) x = false := by
            cases hr2 : readyForOrder t (r :: rest) x
            · rfl
            · exact absurd (hsub y hy) (ready_true_not_mem hr2 he)
          have hm : memS ((r :: rest).filter (readyForOrder t (r :: rest))) x
              = false := by
            cases hm2 : memS ((r :: rest).filter (readyForOrder t (r :: rest))) x
            · rfl
            · have := (List.mem_filter.mp (memS_iff.mp hm2)).2
              rw [hnr] at this
              exact absurd this (by simp)
          rw [hm]
          rfl
        obtain ⟨ms, hms⟩ := ih _ hsub'
        exact ⟨ms, by rw [kahn_succ_eq, if_neg hrs, hms]⟩

/-- C2: dependency-graph construction succeeds on acyclic templates —
and its output is a topological order consistent with declared and
attribute-implied dependencies — and fails with `CyclicDependencyError`
on every template whose references form a cycle. -/
theorem claim_C2_graph_construction :
    ∀ t : Template,
      (∀ L, buildGraph t = Except.ok L → IsTopoOrder t L)
      ∧ (TAcyclic t → ∃ L, buildGraph t = Except.ok L)
      ∧ (∀ x, Relation.TransGen (fun a b => tEdge t a b = true) x x →
          ∃ ms, buildGraph t = Except.error (EngineError.cyclicDependency ms)) := by
  intro t
  refine ⟨?_, ?_, ?_⟩
  · intro L h
    exact ⟨kahn_perm t _ _ _ h,
      kahn_orderOK t _ _ [] L (fun y hy hny => absurd hy hny) h⟩
  · intro hac
    rcases hb : buildGraph t with e0 | L
    · obtain ⟨z, hz⟩ :=
        kahn_err_cyclic t t.keys.length t.keys e0 (Nat.le_refl _) hb
      exact absurd ⟨z, hz⟩ hac
    · exact ⟨L, rfl⟩
  · intro x hx
    obtain ⟨W, hWne, hstep, hkeys⟩ := cycle_walk t x hx
    exact kahn_cycle_err t W hWne hstep t.keys.length t.keys hkeys

/-- C2 witness: the scenario template is acyclic — construction succeeds
with the topological order `A B C D E` — while the two-resource cyclic
template fails with `CyclicDependencyError`. -/
theorem claim_C2_graph_construction_witness :
    IsTopoOrder scnT0 ["A", "B", "C", "D", "E"]
    ∧ (∃ L, buildGraph scnT0 = Except.ok L)
    ∧ (∃ ms, buildGraph tCyc = Except.error (EngineError.cyclicDependency ms)) := by
  refine ⟨(claim_C2_graph_construction scnT0).1 _ (by rfl), ?_, ?_⟩
  · refine (claim_C2_graph_construction scnT0).2.1 ?_
    rintro ⟨x, hx⟩
    obtain ⟨ms, hms⟩ := (claim_C2_graph_construction scnT0).2.2 x hx
    have hok : buildGraph scnT0 = Except.ok ["A", "B", "C", "D", "E"] := by rfl
    rw [hok] at hms
    exact Except.noConfusion hms
  · refine (claim_C2_graph_construction tCyc).2.2 "X" ?_
    have h1 : tEdge tCyc "X" "Y" = true := by rfl
    have h2 : tEdge tCyc "Y" "X" = true := by rfl
    exact Relation.TransGen.tail (Relation.TransGen.single h1) h2

/-! ### Failure propagation (C4) -/

theorem memS_append {a b : List String} {x : String} :
    memS (a ++ b) x = (memS a x || memS b x) := by
  induction a with
  | nil => simp [memS]
  | cons y rest ih =>
    rw [List.cons_append]
    show (if y = x then true else memS (rest ++ b) x)
      = ((if y = x then true else memS rest x) || memS b x)
    by_cases hy : y = x
    · simp [hy]
    · simp [hy, ih]

theorem satur_succ_eq (ns : List (String × Node)) (names : List String)
    (j : Nat) (acc : List String) :
    satur ns names (j + 1) acc
      = (if names.filter (fun x => !(memS acc x) && depsOnAny ns acc x) = [] then acc
        else satur ns names j
          (acc ++ names.filter (fun x => !(memS acc x) && depsOnAny ns acc x))) := rfl

theorem satur_mono (ns : List (String × Node)) (names : List String) :
    ∀ (k : Nat) (acc : List String) (x : String),
      x ∈ acc → x ∈ satur ns names k acc := by
  intro k
  induction k with
  | zero => intro acc x hx; exact hx
  | succ j ih =>
    intro acc x hx
    rw [satur_succ_eq]
    by_cases hf : names.filter (fun v => !(memS acc v) && depsOnAny ns acc v) = []
    · rw [if_pos hf]; exact hx
    · rw [if_neg hf]
      exact ih _ x (List.mem_append.mpr (Or.inl hx))

theorem depsOnAny_true {ns : List (String × Node)} {acc : List String}
    {x : String} :
    depsOnAny ns acc x = true ↔ ∃ y, y ∈ nodeRefs ns x ∧ y ∈ acc := by
  unfold depsOnAny
  rw [List.any_eq_true]
  constructor
  · rintro ⟨y, hy, hm⟩
    exact ⟨y, hy, memS_iff.mp hm⟩
  · rintro ⟨y, hy, hm⟩
    exact ⟨y, hy, memS_iff.mpr hm⟩

/-- Everything the saturation collects satisfies any property closed
under taking dependents. -/
theorem satur_sound (ns : List (String × Node)) (names : List String)
    (P : String → Prop)
    (hstep : ∀ x y, y ∈ nodeRefs ns x → P y → P x) :
    ∀ (k : Nat) (acc : List String), (∀ a ∈ acc, P a) →
      ∀ b ∈ satur ns names k acc, P b := by
  intro k
  induction k with
  | zero => intro acc hacc b hb; exact hacc b hb
  | succ j ih =>
    intro acc hacc b hb
    rw [satur_succ_eq] at hb
    by_cases hf : names.filter (fun v => !(memS acc v) && depsOnAny ns acc v) = []
    · rw [if_pos hf] at hb; exact hacc b hb
    · rw [if_neg hf] at hb
      refine ih _ ?_ b hb
      intro a ha
      rcases List.mem_append.mp ha with h | h
      · exact hacc a h
      · have hpred := (List.mem_filter.mp h).2
        rw [Bool.and_eq_true] at hpred
        obtain ⟨y, hyR, hyacc⟩ := depsOnAny_true.mp hpred.2
        exact hstep a y hyR (hacc y hyacc)

theorem length_filter_mono (p1 p2 : String → Bool) :
    ∀ l : List String, (∀ x ∈ l, p2 x = true → p1 x = true) →
      (l.filter p2).length ≤ (l.filter p1).length := by
  intro l
  induction l with
  | nil => intro _; exact Nat.le_refl 0
  | cons a l' ih =>
    intro h
    have hi := ih (fun x hx h2 => h x (List.mem_cons_of_mem a hx) h2)
    rw [List.filter_cons, List.filter_cons]
    cases h2 : p2 a
    · cases h1 : p1 a <;> simp <;> omega
    · have h1 : p1 a = true := h a (List.mem_cons_self a l') h2
      rw [h1]
      simp
      omega

theorem length_filter_lt_strong (p1 p2 : String → Bool) :
    ∀ (l : List String) (y : String), (∀ x ∈ l, p2 x = true → p1 x = true) →
      y ∈ l → p1 y = true → p2 y = false →
      (l.filter p2).length < (l.filter p1).length := by
  intro l
  induction l with
  | nil => intro y _ hy _ _; exact absurd hy (List.not_mem_nil y)
  | cons a l' ih =>
    intro y himp hy h1 h2
    have himp' : ∀ x ∈ l', p2 x = true → p1 x = true :=
      fun x hx h' => himp x (List.mem_cons_of_mem a hx) h'
    rw [List.filter_cons, List.filter_cons]
    rcases List.mem_cons.mp hy with he | hm
    · subst he
      rw [h1, h2]
      simp only [Bool.false_eq_true, if_false, if_true, List.length_cons]
      exact Nat.lt_succ_of_le (length_filter_mono p1 p2 l' himp')
    · have hrec := ih y himp' hm h1 h2
      cases hp2 : p2 a
      · cases hp1 : p1 a <;> simp <;> omega
      · have hp1 : p1 a = true := himp a (List.mem_cons_self a l') hp2
        rw [hp1]
        simp
        omega

/-- With enough fuel the saturation is closed: anything depending on a
member is itself a member. -/
theorem satur_closed (ns : List (String × Node)) (names : List String) :
    ∀ (k : Nat) (acc : List String),
      (names.filter (fun v => !(memS acc v))).length ≤ k →
      ∀ x ∈ names, depsOnAny ns (satur ns names k acc) x = true →
        x ∈ satur ns names k acc := by
  intro k
  induction k with
  | zero =>
    intro acc hlen x hx _
    have hnil : names.filter (fun v => !(memS acc v)) = [] :=
      List.length_eq_zero.mp (Nat.le_zero.mp hlen)
    show x ∈ acc
    by_contra hxa
    have hmem : x ∈ names.filter (fun v => !(memS acc v)) := by
      refine List.mem_filter.mpr ⟨hx, ?_⟩
      cases hm : memS acc x
      · rfl
      · exact absurd (memS_iff.mp hm) hxa
    rw [hnil] at hmem
    exact absurd hmem (List.not_mem_nil x)
  | succ j ih =>
    intro acc hlen x hx hdep
    rw [satur_succ_eq] at hdep ⊢
    by_cases hf : names.filter (fun v => !(memS acc v) && depsOnAny ns acc v) = []
    · rw [if_pos hf] at hdep ⊢
      by_contra hxa
      have hmem : x ∈ names.filter (fun v => !(memS acc v) && depsOnAny ns acc v) := by
        refine List.mem_filter.mpr ⟨hx, ?_⟩
        rw [Bool.and_eq_true]
        refine ⟨?_, hdep⟩
        cases hm : memS acc x
        · rfl
        · exact absurd (memS_iff.mp hm) hxa
      rw [hf] at hmem
      exact absurd hmem (List.not_mem_nil x)
    · rw [if_neg hf] at hdep ⊢
      refine ih _ ?_ x hx hdep
      obtain ⟨y, hy⟩ := List.exists_mem_of_ne_nil _ hf
      have hyn : y ∈ names := (List.mem_filter.mp hy).1
      have hypred := (List.mem_filter.mp hy).2
      rw [Bool.and_eq_true] at hypred
      have hlt := length_filter_lt_strong
        (fun v => !(memS acc v))
        (fun v => !(memS (acc ++ names.filter
          (fun w => !(memS acc w) && depsOnAny ns acc w)) v))
        names y ?_ hyn hypred.1 ?_
      · omega
      · intro v _ h2
        simp only at h2 ⊢
        rw [memS_append] at h2
        cases hm : memS acc v
        · rfl
        · rw [hm] at h2
          exact absurd h2 (by simp)
      · simp only
        rw [memS_append, memS_iff.mpr hy]
        cases memS acc y <;> rfl

theorem failedNames_mem {ns : List (String × Node)} {f : String} {nf : Node} :
    (f, nf) ∈ ns → isFailedN nf = true → f ∈ failedNames ns := by
  intro hmem hfail
  unfold failedNames
  refine List.mem_map.mpr ⟨(f, nf), ?_, rfl⟩
  exact List.mem_filter.mpr ⟨hmem, hfail⟩

theorem doomed_start {ns : List (String × Node)} {f : String} :
    f ∈ failedNames ns → f ∈ doomed ns :=
  fun h => satur_mono ns (ns.map Prod.fst) ns.length (failedNames ns) f h

theorem doomed_closed (ns : List (String × Node)) :
    ∀ x ∈ ns.map Prod.fst, depsOnAny ns (doomed ns) x = true → x ∈ doomed ns := by
  intro x hx hdep
  refine satur_closed ns (ns.map Prod.fst) ns.length (failedNames ns) ?_ x hx hdep
  have h1 := List.length_filter_le
    (fun v => !(memS (failedNames ns) v)) (ns.map Prod.fst)
  rw [List.length_map] at h1
  exact h1

theorem doomed_sound (ns : List (String × Node)) :
    ∀ b ∈ doomed ns,
      b ∈ failedNames ns ∨ ∃ f, f ∈ failedNames ns ∧ TransDep ns b f := by
  refine satur_sound ns (ns.map Prod.fst)
    (fun a => a ∈ failedNames ns ∨ ∃ f, f ∈ failedNames ns ∧ TransDep ns a f)
    ?_ ns.length (failedNames ns) (fun a ha => Or.inl ha)
  intro x y hyR hPy
  rcases hPy with h | ⟨f, hf, htd⟩
  · exact Or.inr ⟨y, h, Relation.TransGen.single (memS_iff.mpr hyR)⟩
  · exact Or.inr ⟨f, hf, Relation.TransGen.head (memS_iff.mpr hyR) htd⟩

theorem nodeRefs_key {ns : List (String × Node)} {x y : String}
    (h : memS (nodeRefs ns x) y = true) : x ∈ ns.map Prod.fst := by
  unfold nodeRefs at h
  rcases hf : findNode ns x with _ | n
  · rw [hf] at h
    exact absurd h (by simp [memS])
  · exact findNode_isSome_iff.mp (by rw [hf]; rfl)

/-- Transitive dependents of doomed nodes are doomed. -/
theorem transDep_doomed (ns : List (String × Node)) :
    ∀ x f, TransDep ns x f → f ∈ doomed ns → x ∈ doomed ns := by
  intro x f htd
  induction htd with
  | single hr =>
    intro hf
    exact doomed_closed ns x (nodeRefs_key hr)
      (depsOnAny_true.mpr ⟨_, memS_iff.mp hr, hf⟩)
  | @tail p q hT hr ih =>
    intro hq
    exact ih (doomed_closed ns p (nodeRefs_key hr)
      (depsOnAny_true.mpr ⟨q, memS_iff.mp hr, hq⟩))

theorem findNode_propagate_some {ns : List (String × Node)} {x : String}
    {n' : Node} :
    findNode (propagate ns) x = some n' →
    ∃ n, findNode ns x = some n ∧ n' = markNode (doomed ns) x n := by
  intro h
  rw [findNode_propagate] at h
  rcases hfx : findNode ns x with _ | n
  · rw [hfx] at h
    exact absurd h (by simp)
  · rw [hfx] at h
    simp only [Option.map_some'] at h
    injection h with h'
    exact ⟨n, rfl, h'.symm⟩

theorem findNode_dispatchPhase_some {ns : List (String × Node)} {x : String}
    {n' : Node} :
    findNode (dispatchPhase ns) x = some n' →
    ∃ n, findNode ns x = some n ∧ n' = dispatchNode ns x n := by
  intro h
  rw [findNode_dispatchPhase] at h
  rcases hfx : findNode ns x with _ | n
  · rw [hfx] at h
    exact absurd h (by simp)
  · rw [hfx] at h
    simp only [Option.map_some'] at h
    injection h with h'
    exact ⟨n, rfl, h'.symm⟩

theorem nodeRefs_propagate (ns : List (String × Node)) (z : String) :
    nodeRefs (propagate ns) z = nodeRefs ns z := by
  unfold nodeRefs
  rw [findNode_propagate]
  rcases hfn : findNode ns z with _ | n
  · rfl
  · show refsOfDef (markNode (doomed ns) z n).goalDef = refsOfDef n.goalDef
    unfold markNode
    by_cases hc : (n.state = NState.pending && memS (doomed ns) z) = true
    · rw [if_pos hc]
    · rw [if_neg hc]

theorem nodeRefs_dispatchPhase (ns : List (String × Node)) (z : String) :
    nodeRefs (dispatchPhase ns) z = nodeRefs ns z := by
  unfold nodeRefs
  rw [findNode_dispatchPhase]
  rcases hfn : findNode ns z with _ | n
  · rfl
  · show refsOfDef (dispatchNode ns z n).goalDef = refsOfDef n.goalDef
    unfold dispatchNode
    by_cases hc : (n.state = NState.pending && readyToDispatch ns z n) = true
    · rw [if_pos hc]
    · rw [if_neg hc]

theorem dispatchNode_pending {ns : List (String × Node)} {r : String} {n : Node} :
    (dispatchNode ns r n).state = NState.pending → dispatchNode ns r n = n := by
  unfold dispatchNode
  by_cases hc : (n.state = NState.pending && readyToDispatch ns r n) = true
  · rw [if_pos hc]
    intro h
    exact absurd h (by simp)
  · rw [if_neg hc]
    intro _
    rfl

theorem dispatchNode_failed {ns : List (String × Node)} {r : String} {n : Node} :
    isFailedN (dispatchNode ns r n) = true → dispatchNode ns r n = n := by
  unfold dispatchNode
  by_cases hc : (n.state = NState.pending && readyToDispatch ns r n) = true
  · rw [if_pos hc]
    intro h
    exact absurd h (by simp [isFailedN])
  · rw [if_neg hc]
    intro _
    rfl

theorem markNode_pending {dm : List String} {r : String} {n : Node} :
    (markNode dm r n).state = NState.pending →
    markNode dm r n = n ∧ (n.state = NState.pending → memS dm r = false) := by
  unfold markNode
  by_cases hc : (n.state = NState.pending && memS dm r) = true
  · rw [if_pos hc]
    intro h
    exact absurd h (by simp)
  · rw [if_neg hc]
    intro _
    refine ⟨rfl, ?_⟩
    intro hp
    cases hm : memS dm r
    · rfl
    · exact absurd (by simp [hp, hm]) hc

/-- A node FAILED after the propagate/dispatch phases is doomed: it was
failed already or was just marked. -/
theorem out_failed_doomed {ns2 : List (String × Node)} {f : String} {nf : Node} :
    findNode (dispatchPhase (propagate ns2)) f = some nf → isFailedN nf = true →
    f ∈ doomed ns2 := by
  intro hf hfail
  obtain ⟨m3, hm3, he3⟩ := findNode_dispatchPhase_some hf
  rw [he3] at hfail
  have hnf : dispatchNode (propagate ns2) f m3 = m3 := dispatchNode_failed hfail
  rw [hnf] at hfail
  obtain ⟨m2, hm2, he2⟩ := findNode_propagate_some hm3
  rw [he2] at hfail
  unfold markNode at hfail
  by_cases hc : (m2.state = NState.pending && memS (doomed ns2) f) = true
  · rw [Bool.and_eq_true] at hc
    exact memS_iff.mp hc.2
  · rw [if_neg hc] at hfail
    exact doomed_start (failedNames_mem (findNode_mem hm2) hfail)

/-- A node PENDING after the propagate/dispatch phases is not doomed. -/
theorem out_pending_not_doomed {ns2 : List (String × Node)} {x : String}
    {nx : Node} :
    findNode (dispatchPhase (propagate ns2)) x = some nx →
    nx.state = NState.pending → memS (doomed ns2) x = false := by
  intro hx hpend
  obtain ⟨m3, hm3, he3⟩ := findNode_dispatchPhase_some hx
  rw [he3] at hpend
  have h3 : dispatchNode (propagate ns2) x m3 = m3 := dispatchNode_pending hpend
  rw [h3] at hpend
  obtain ⟨m2, hm2, he2⟩ := findNode_propagate_some hm3
  rw [he2] at hpend
  obtain ⟨heq, hns⟩ := markNode_pending hpend
  rw [heq] at hpend
  exact hns hpend

/-- After the propagation and dispatch phases, no PENDING node
transitively depends on a FAILED node. -/
theorem pipeline_no_pending_on_failed (ns2 : List (String × Node)) :
    ∀ x f nx nf,
      findNode (dispatchPhase (propagate ns2)) x = some nx →
      nx.state = NState.pending →
      findNode (dispatchPhase (propagate ns2)) f = some nf →
      isFailedN nf = true →
      ¬ TransDep (dispatchPhase (propagate ns2)) x f := by
  intro x f nx nf hx hpend hf hfail htd
  have htd2 : TransDep ns2 x f := by
    refine Relation.TransGen.mono ?_ htd
    intro a b hab
    rw [nodeRefs_dispatchPhase, nodeRefs_propagate] at hab
    exact hab
  have hdoomed : x ∈ doomed ns2 :=
    transDep_doomed ns2 x f htd2 (out_failed_doomed hf hfail)
  have hnot := out_pending_not_doomed hx hpend
  rw [memS_iff.mpr hdoomed] at hnot
  exact absurd hnot (by simp)

theorem isFailedN_iff {n : Node} :
    isFailedN n = true ↔ ∃ rs, n.state = NState.failed rs := by
  unfold isFailedN
  rcases hs : n.state with _ | e | _ | rs <;> simp

/-- A tick that keeps the stack leaves its node set as the four-phase
pipeline (when active) or untouched. -/
theorem tickStack_nodes_of_kept (c : Collab) (s : Stack)
    (hrm : (tickStack c s).2 = false) :
    (tickStack c s).1.nodes
      = (if s.active then
          dispatchPhase (propagate
            (reconcile s.goalT (pollPhase c s.nodes) s.nextIdent).1)
        else s.nodes) := by
  unfold tickStack at hrm ⊢
  by_cases ha : s.active = true
  · by_cases hc : convergedB s.goalT (dispatchPhase (propagate
        (reconcile s.goalT (pollPhase c s.nodes) s.nextIdent).1)) = true
    · by_cases hd : s.destroying = true
      · rw [if_pos ha] at hrm
        simp only [hc, hd, if_true, if_pos] at hrm
        exact absurd hrm (by simp)
      · simp [ha, hc, hd]
    · simp [ha, hc]
  · simp [ha]

theorem pollNode_failed_keep {c : Collab} {r : String} {n : Node}
    (h : isFailedN n = true) : pollNode c r n = some n := by
  obtain ⟨rs, hst⟩ := isFailedN_iff.mp h
  unfold pollNode
  rw [hst]

theorem reconcileNode_failed_keep {gd : Option RsrcDef} {n : Node}
    (h : isFailedN n = true) : reconcileNode gd n = some n := by
  obtain ⟨rs, hst⟩ := isFailedN_iff.mp h
  unfold reconcileNode
  rcases gd with _ | d
  · rw [hst]
  · rw [hst]

theorem markNode_failed_keep {dm : List String} {r : String} {n : Node}
    (h : isFailedN n = true) : markNode dm r n = n := by
  obtain ⟨rs, hst⟩ := isFailedN_iff.mp h
  unfold markNode
  simp [hst]

theorem dispatchNode_keep_failed {ns : List (String × Node)} {r : String}
    {n : Node} (h : isFailedN n = true) : dispatchNode ns r n = n := by
  obtain ⟨rs, hst⟩ := isFailedN_iff.mp h
  unfold dispatchNode
  simp [hst]

/-- A FAILED node is terminal: any tick that keeps the stack keeps the
node exactly as it is — it is never retried. -/
theorem tickStack_keeps_failed (c : Collab) (s : Stack) (r : String) (n : Node) :
    findNode s.nodes r = some n → isFailedN n = true →
    (tickStack c s).2 = false →
    findNode (tickStack c s).1.nodes r = some n := by
  intro hn hfail hrm
  rw [tickStack_nodes_of_kept c s hrm]
  by_cases ha : s.active = true
  · rw [if_pos ha]
    have h1 : findNode (pollPhase c s.nodes) r = some n :=
      findNode_pollPhase_keep c s.nodes r n n hn (pollNode_failed_keep hfail)
    have h2 : findNode (reconcile s.goalT (pollPhase c s.nodes) s.nextIdent).1 r
        = some n :=
      findNode_reconcile_keep s.goalT _ s.nextIdent r n n h1
        (reconcileNode_failed_keep hfail)
    rw [findNode_dispatchPhase, findNode_propagate, h2]
    simp only [Option.map_some']
    rw [markNode_failed_keep hfail, dispatchNode_keep_failed hfail]
  · rw [if_neg ha]
    exact hn

theorem keys_mapNodes (f : String → Node → Node) (ns : List (String × Node)) :
    (ns.map (fun p => (p.1, f p.1 p.2))).map Prod.fst = ns.map Prod.fst := by
  induction ns with
  | nil => rfl
  | cons p rest ih => simp only [List.map_cons, ih]

theorem keys_filterMapNodes_sublist (f : String → Node → Option Node)
    (ns : List (String × Node)) :
    ((ns.filterMap (fun p => (f p.1 p.2).map (fun m => (p.1, m)))).map Prod.fst).Sublist
      (ns.map Prod.fst) := by
  induction ns with
  | nil => exact List.Sublist.refl []
  | cons p rest ih =>
    rw [List.filterMap_cons]
    rcases hfp : f p.1 p.2 with _ | m
    · simp only [List.map_cons]
      exact List.Sublist.cons p.1 ih
    · simp only [Option.map_some', List.map_cons]
      exact List.Sublist.cons₂ p.1 ih

theorem NDkeys_filterMapNodes (f : String → Node → Option Node)
    (ns : List (String × Node)) (h : NDkeys ns) :
    NDkeys (ns.filterMap (fun p => (f p.1 p.2).map (fun m => (p.1, m)))) :=
  List.Nodup.sublist (keys_filterMapNodes_sublist f ns) h

theorem NDkeys_mapNodes (f : String → Node → Node)
    (ns : List (String × Node)) (h : NDkeys ns) :
    NDkeys (ns.map (fun p => (p.1, f p.1 p.2))) := by
  unfold NDkeys
  rw [keys_mapNodes]
  exact h

theorem NDkeys_addMissing (goal : List (String × RsrcDef)) :
    ∀ (ns : List (String × Node)) (next : Nat), NDkeys ns →
      NDkeys (addMissing goal ns next).1 := by
  induction goal with
  | nil => intro ns next h; exact h
  | cons q rest ih =>
    intro ns next h
    unfold addMissing
    rcases hq : findNode ns q.1 with _ | m
    · refine ih _ (next + 1) ?_
      unfold NDkeys
      rw [List.map_append]
      rw [List.nodup_append]
      refine ⟨h, by simp, ?_⟩
      intro a ha hb
      have haq : a = q.1 := by simpa using hb
      rw [haq] at ha
      have : (findNode ns q.1).isSome = true := findNode_isSome_iff.mpr ha
      rw [hq] at this
      exact absurd this (by simp)
    · exact ih ns next h

/-- With unique keys, membership determines the lookup. -/
theorem ND_mem_findNode {ns : List (String × Node)} {x : String} {n : Node} :
    NDkeys ns → (x, n) ∈ ns → findNode ns x = some n := by
  induction ns with
  | nil => intro _ h; exact absurd h (List.not_mem_nil (x, n))
  | cons p rest ih =>
    intro hnd hm
    have hnd' : NDkeys rest := (List.nodup_cons.mp hnd).2
    have hpnot : p.1 ∉ rest.map Prod.fst := (List.nodup_cons.mp hnd).1
    rcases List.mem_cons.mp hm with he | hm'
    · rw [← he]
      show findNode ((x, n) :: rest) x = some n
      unfold findNode
      rw [if_pos rfl]
    · have hx : x ∈ rest.map Prod.fst := List.mem_map.mpr ⟨(x, n), hm', rfl⟩
      have hp1 : p.1 ≠ x := fun he2 => hpnot (he2 ▸ hx)
      unfold findNode
      rw [if_neg hp1]
      exact ih hnd' hm'

/-- With unique keys, a lookup in a key-preserving `filterMap` comes
from the lookup in the original list. -/
theorem findNode_filterMapNodes_back (f : String → Node → Option Node) :
    ∀ (ns : List (String × Node)) (x : String) (n' : Node), NDkeys ns →
      findNode (ns.filterMap (fun p => (f p.1 p.2).map (fun m => (p.1, m)))) x
        = some n' →
      ∃ n, findNode ns x = some n ∧ f x n = some n' := by
  intro ns
  induction ns with
  | nil => intro x n' _ h; exact absurd h (by simp [findNode])
  | cons p rest ih =>
    intro x n' hnd h
    have hnd' : NDkeys rest := (List.nodup_cons.mp hnd).2
    have hpnot : p.1 ∉ rest.map Prod.fst := (List.nodup_cons.mp hnd).1
    rw [List.filterMap_cons] at h
    by_cases hp : p.1 = x
    · rcases hfp : f p.1 p.2 with _ | m
      · rw [hfp] at h
        have h2 : findNode (rest.filterMap
            (fun p => (f p.1 p.2).map (fun m => (p.1, m)))) x = some n' := h
        have hxk : x ∈ (rest.filterMap
            (fun p => (f p.1 p.2).map (fun m => (p.1, m)))).map Prod.fst :=
          findNode_isSome_iff.mp (by rw [h2]; rfl)
        have hk := keys_filterMapNodes_sublist f rest
        exact absurd (hk.subset hxk) (hp ▸ hpnot)
      · rw [hfp] at h
        have h2 : findNode ((p.1, m) :: rest.filterMap
            (fun p => (f p.1 p.2).map (fun m => (p.1, m)))) x = some n' := h
        unfold findNode at h2
        rw [if_pos hp] at h2
        injection h2 with h'
        refine ⟨p.2, ?_, ?_⟩
        · unfold findNode
          rw [if_pos hp]
        · rw [← hp, hfp]
          exact congrArg some h'
    · rcases hfp : f p.1 p.2 with _ | m
      · rw [hfp] at h
        have h2 : findNode (rest.filterMap
            (fun p => (f p.1 p.2).map (fun m => (p.1, m)))) x = some n' := h
        obtain ⟨n, hn, hf⟩ := ih x n' hnd' h2
        refine ⟨n, ?_, hf⟩
        unfold findNode
        rw [if_neg hp]
        exact hn
      · rw [hfp] at h
        have h2 : findNode ((p.1, m) :: rest.filterMap
            (fun p => (f p.1 p.2).map (fun m => (p.1, m)))) x = some n' := h
        unfold findNode at h2
        rw [if_neg hp] at h2
        obtain ⟨n, hn, hf⟩ := ih x n' hnd' h2
        refine ⟨n, ?_, hf⟩
        unfold findNode
        rw [if_neg hp]
        exact hn

theorem findNode_append_back {ns more : List (String × Node)} {x : String}
    {n' : Node} :
    findNode (ns ++ more) x = some n' →
    findNode ns x = some n' ∨ (findNode ns x = none ∧ findNode more x = some n') := by
  induction ns with
  | nil => intro h; exact Or.inr ⟨rfl, h⟩
  | cons p rest ih =>
    intro h
    rw [List.cons_append] at h
    by_cases hp : p.1 = x
    · left
      unfold findNode at h ⊢
      rw [if_pos hp] at h ⊢
      exact h
    · have h' : findNode (rest ++ more) x = some n' := by
        unfold findNode at h
        rw [if_neg hp] at h
        exact h
      rcases ih h' with h1 | ⟨h1, h2⟩
      · left
        unfold findNode
        rw [if_neg hp]
        exact h1
      · right
        refine ⟨?_, h2⟩
        unfold findNode
        rw [if_neg hp]
        exact h1

theorem findNode_addMissing_back (goal : List (String × RsrcDef)) :
    ∀ (ns : List (String × Node)) (next : Nat) (x : String) (n' : Node),
      findNode (addMissing goal ns next).1 x = some n' →
      findNode ns x = some n' ∨ ∃ k d, n' = newNode k d := by
  induction goal with
  | nil => intro ns next x n' h; exact Or.inl h
  | cons q rest ih =>
    intro ns next x n' h
    unfold addMissing at h
    rcases hq : findNode ns q.1 with _ | m
    · rw [hq] at h
      rcases ih _ (next + 1) x n' h with h1 | h1
      · rcases findNode_append_back h1 with h2 | ⟨_, h2⟩
        · exact Or.inl h2
        · right
          refine ⟨next, q.2, ?_⟩
          unfold findNode at h2
          by_cases hqx : q.1 = x
          · rw [if_pos hqx] at h2
            injection h2 with h3
            exact h3.symm
          · rw [if_neg hqx] at h2
            exact absurd h2 (by simp [findNode])
      · exact Or.inr h1
    · rw [hq] at h
      exact ih ns next x n' h

theorem findNode_reconcile_back {goal : Template} {ns : List (String × Node)}
    {next : Nat} {x : String} {n' : Node} (hnd : NDkeys ns) :
    findNode (reconcile goal ns next).1 x = some n' →
    (∃ n, findNode ns x = some n ∧ reconcileNode (Template.find goal x) n = some n')
    ∨ ∃ k d, n' = newNode k d := by
  intro h
  unfold reconcile at h
  rcases findNode_addMissing_back goal.resources _ next x n' h with h1 | h1
  · exact Or.inl (findNode_filterMapNodes_back
      (fun y m => reconcileNode (Template.find goal y) m) ns x n' hnd h1)
  · exact Or.inr h1

theorem failedNames_back {ns : List (String × Node)} {f : String} :
    f ∈ failedNames ns → ∃ nf, (f, nf) ∈ ns ∧ isFailedN nf = true := by
  intro h
  unfold failedNames at h
  obtain ⟨p, hp, he⟩ := List.mem_map.mp h
  obtain ⟨hm, hf⟩ := List.mem_filter.mp hp
  refine ⟨p.2, ?_, hf⟩
  have hpe : p = (f, p.2) := Prod.ext he rfl
  rw [← hpe]
  exact hm

/-- Reconciliation never creates a FAILED node. -/
theorem reconcileNode_failed_back {gd : Option RsrcDef} {n m : Node}
    (h : reconcileNode gd n = some m) (hfail : isFailedN m = true) : m = n := by
  obtain ⟨rs, hst⟩ := isFailedN_iff.mp hfail
  unfold reconcileNode at h
  rcases gd with _ | d
  · rcases hns : n.state with _ | e | _ | rs2 <;> rw [hns] at h
    · have h2 : (if n.applied = none then none
          else some { n with state := NState.pending, op := Op.deleteOp, dispatched := false }) = some m := h
      by_cases hap : n.applied = none
      · rw [if_pos hap] at h2
        exact absurd h2 (by simp)
      · rw [if_neg hap] at h2
        injection h2 with h3
        rw [← h3] at hst
        exact absurd hst (by simp)
    · have h2 : some n = some m := h
      injection h2 with h3
      exact h3.symm
    · have h2 : some { n with state := NState.pending, op := Op.deleteOp, dispatched := false } = some m := h
      injection h2 with h3
      rw [← h3] at hst
      exact absurd hst (by simp)
    · have h2 : some n = some m := h
      injection h2 with h3
      exact h3.symm
  · rcases hns : n.state with _ | e | _ | rs2 <;> rw [hns] at h
    · have h2 : (if n.applied = some d then
          some { n with state := NState.complete, goalDef := d }
        else
          some { n with goalDef := d, op := if n.applied = none then Op.createOp else Op.updateOp, state := NState.pending, dispatched := false }) = some m := h
      by_cases hap : n.applied = some d
      · rw [if_pos hap] at h2
        injection h2 with h3
        rw [← h3] at hst
        exact absurd hst (by simp)
      · rw [if_neg hap] at h2
        injection h2 with h3
        rw [← h3] at hst
        exact absurd hst (by simp)
    · have h2 : some n = some m := h
      injection h2 with h3
      exact h3.symm
    · have h2 : (if n.applied = some d then some n
        else some { n with state := NState.pending, op := Op.updateOp, goalDef := d, dispatched := false }) = some m := h
      by_cases hap : n.applied = some d
      · rw [if_pos hap] at h2
        injection h2 with h3
        exact h3.symm
      · rw [if_neg hap] at h2
        injection h2 with h3
        rw [← h3] at hst
        exact absurd hst (by simp)
    · have h2 : some n = some m := h
      injection h2 with h3
      exact h3.symm

/-- Polling produces a FAILED node only as the node itself or as a
collaborator-reported failure of an IN_PROGRESS operation. -/
theorem pollNode_back_failed {c : Collab} {r : String} {n m : Node}
    (h : pollNode c r n = some m) (hfail : isFailedN m = true) :
    m = n ∨ (∃ e, n.state = NState.inProgress e ∧ c.dur r n.op ≤ e + 1
      ∧ c.okOp r n.op = false
      ∧ m = { n with state := NState.failed FailReason.collabErr }) := by
  unfold pollNode at h
  rcases hns : n.state with _ | e | _ | rs2 <;> rw [hns] at h
  · have h2 : some n = some m := h
    injection h2 with h'
    exact Or.inl h'.symm
  · have h2 : (if c.dur r n.op ≤ e + 1 then
        (if c.okOp r n.op = true then
          (match n.op with
            | Op.deleteOp => none
            | _ => some { n with state := NState.complete, applied := some n.goalDef, attrs := n.resolvedP })
          else some { n with state := NState.failed FailReason.collabErr })
        else some { n with state := NState.inProgress (e + 1) }) = some m := h
    by_cases hdur : c.dur r n.op ≤ e + 1
    · rw [if_pos hdur] at h2
      by_cases hok : c.okOp r n.op = true
      · rw [if_pos hok] at h2
        rcases hop : n.op with _ | _ | _ <;> rw [hop] at h2
        · injection h2 with h'
          rw [← h'] at hfail
          exact absurd hfail (by simp [isFailedN])
        · injection h2 with h'
          rw [← h'] at hfail
          exact absurd hfail (by simp [isFailedN])
        · exact absurd h2 (by simp)
      · rw [if_neg hok] at h2
        right
        injection h2 with h'
        refine ⟨e, rfl, hdur, ?_, h'.symm⟩
        cases hokv : c.okOp r n.op
        · rfl
        · exact absurd hokv hok
    · rw [if_neg hdur] at h2
      injection h2 with h'
      rw [← h'] at hfail
      exact absurd hfail (by simp [isFailedN])
  · have h2 : some n = some m := h
    injection h2 with h'
    exact Or.inl h'.symm
  · have h2 : some n = some m := h
    injection h2 with h'
    exact Or.inl h'.symm

/-- Marking produces only `DependencyFailedError` failures, and only on
PENDING doomed nodes. -/
theorem markNode_back_collab {dm : List String} {r : String} {n : Node} :
    (markNode dm r n).state = NState.failed FailReason.collabErr →
    markNode dm r n = n := by
  unfold markNode
  by_cases hc : (n.state = NState.pending && memS dm r) = true
  · rw [if_pos hc]
    intro h
    exact absurd h (by simp)
  · rw [if_neg hc]
    intro _
    rfl

theorem markNode_back_depFailed {dm : List String} {r : String} {n : Node} :
    (markNode dm r n).state = NState.failed FailReason.depFailed →
    markNode dm r n = n
    ∨ (n.state = NState.pending ∧ memS dm r = true
        ∧ markNode dm r n = { n with state := NState.failed FailReason.depFailed }) := by
  unfold markNode
  by_cases hc : (n.state = NState.pending && memS dm r) = true
  · rw [if_pos hc]
    intro _
    rw [Bool.and_eq_true] at hc
    exact Or.inr ⟨of_decide_eq_true hc.1, hc.2, rfl⟩
  · rw [if_neg hc]
    intro _
    exact Or.inl rfl

/-- During a tick, a node that ends up FAILED with
`DependencyFailedError` either was already in that state or is a
transitive dependent of a node that is FAILED after the tick. -/
theorem tick_depFailed_origin (c : Collab) (s : Stack)
    (hnd : NDkeys s.nodes) (hrm : (tickStack c s).2 = false) :
    ∀ r n', findNode (tickStack c s).1.nodes r = some n' →
      n'.state = NState.failed FailReason.depFailed →
      (∃ n0, findNode s.nodes r = some n0
        ∧ n0.state = NState.failed FailReason.depFailed)
      ∨ (∃ f nf, findNode (tickStack c s).1.nodes f = some nf
          ∧ isFailedN nf = true ∧ TransDep (tickStack c s).1.nodes r f) := by
  intro r n' hr hst
  rw [tickStack_nodes_of_kept c s hrm] at hr ⊢
  by_cases ha : s.active = true
  case neg =>
    rw [if_neg ha] at hr
    exact Or.inl ⟨n', hr, hst⟩
  case pos =>
  rw [if_pos ha] at hr ⊢
  have hfailN : isFailedN n' = true := isFailedN_iff.mpr ⟨_, hst⟩
  obtain ⟨m3, hm3, he3⟩ := findNode_dispatchPhase_some hr
  rw [he3] at hfailN hst
  have he3' := dispatchNode_failed hfailN
  rw [he3'] at hfailN hst
  obtain ⟨m2, hm2, he2⟩ := findNode_propagate_some hm3
  rw [he2] at hfailN hst
  have hnd1 : NDkeys (pollPhase c s.nodes) :=
    NDkeys_filterMapNodes (pollNode c) s.nodes hnd
  rcases markNode_back_depFailed hst with hkeep | ⟨hpend2, hdm, _⟩
  · -- the node was already FAILED(dep) before propagation
    rw [hkeep] at hfailN hst
    rcases findNode_reconcile_back hnd1 hm2 with ⟨m1, hm1, hrn⟩ | ⟨k, d, hnew⟩
    · have he1 := reconcileNode_failed_back hrn hfailN
      rw [he1] at hfailN hst
      obtain ⟨n0, hn0, hp0⟩ := findNode_filterMapNodes_back (pollNode c)
        s.nodes r m1 hnd hm1
      rcases pollNode_back_failed hp0 hfailN with he0 | ⟨e, _, _, _, hcoll⟩
      · rw [he0] at hst
        exact Or.inl ⟨n0, hn0, hst⟩
      · rw [hcoll] at hst
        exact absurd hst (by simp)
    · rw [hnew] at hst
      exact absurd hst (by simp [newNode])
  · -- freshly marked: the node is doomed, hence depends on a failure
    have hdoom : r ∈ doomed (reconcile s.goalT (pollPhase c s.nodes) s.nextIdent).1 :=
      memS_iff.mp hdm
    set ns2 := (reconcile s.goalT (pollPhase c s.nodes) s.nextIdent).1 with hns2
    rcases doomed_sound ns2 r hdoom with hrf | ⟨f, hf, htd⟩
    · -- r itself failed in ns2: impossible, its node there is PENDING
      obtain ⟨nf, hmem, hnf⟩ := failedNames_back hrf
      have hnd2 : NDkeys ns2 := by
        rw [hns2]
        unfold reconcile
        exact NDkeys_addMissing s.goalT.resources _ s.nextIdent
          (NDkeys_filterMapNodes
            (fun y m => reconcileNode (Template.find s.goalT y) m) _ hnd1)
      have := ND_mem_findNode hnd2 hmem
      rw [hm2] at this
      injection this with he
      rw [← he] at hnf
      rw [isFailedN_iff] at hnf
      obtain ⟨rs3, hrs3⟩ := hnf
      rw [hpend2] at hrs3
      exact absurd hrs3 (by simp)
    · -- r transitively depends on the failed f
      obtain ⟨nf, hmem, hnf⟩ := failedNames_back hf
      have hnd2 : NDkeys ns2 := by
        rw [hns2]
        unfold reconcile
        exact NDkeys_addMissing s.goalT.resources _ s.nextIdent
          (NDkeys_filterMapNodes
            (fun y m => reconcileNode (Template.find s.goalT y) m) _ hnd1)
      have hffind : findNode ns2 f = some nf := ND_mem_findNode hnd2 hmem
      refine Or.inr ⟨f, nf, ?_, hnf, ?_⟩
      · have h1 : findNode (propagate ns2) f = some nf := by
          rw [findNode_propagate, hffind]
          simp only [Option.map_some']
          rw [markNode_failed_keep hnf]
        rw [findNode_dispatchPhase, h1]
        simp only [Option.map_some']
        rw [dispatchNode_keep_failed hnf]
      · refine Relation.TransGen.mono ?_ htd
        intro a b hab
        rw [nodeRefs_dispatchPhase, nodeRefs_propagate]
        exact hab

/-- During a tick, a node that ends up FAILED with a collaborator error
either was already in that state or is the originating node: its own
IN_PROGRESS operation was reported failed by the collaborator. -/
theorem tick_collabFailed_origin (c : Collab) (s : Stack)
    (hnd : NDkeys s.nodes) (hrm : (tickStack c s).2 = false) :
    ∀ r n', findNode (tickStack c s).1.nodes r = some n' →
      n'.state = NState.failed FailReason.collabErr →
      ∃ n0, findNode s.nodes r = some n0
        ∧ (n0.state = NState.failed FailReason.collabErr
          ∨ ∃ e, n0.state = NState.inProgress e ∧ c.dur r n0.op ≤ e + 1
              ∧ c.okOp r n0.op = false) := by
  intro r n' hr hst
  rw [tickStack_nodes_of_kept c s hrm] at hr
  by_cases ha : s.active = true
  case neg =>
    rw [if_neg ha] at hr
    exact ⟨n', hr, Or.inl hst⟩
  case pos =>
  rw [if_pos ha] at hr
  have hfailN : isFailedN n' = true := isFailedN_iff.mpr ⟨_, hst⟩
  obtain ⟨m3, hm3, he3⟩ := findNode_dispatchPhase_some hr
  rw [he3] at hfailN hst
  have he3' := dispatchNode_failed hfailN
  rw [he3'] at hfailN hst
  obtain ⟨m2, hm2, he2⟩ := findNode_propagate_some hm3
  rw [he2] at hfailN hst
  have hkeep := markNode_back_collab hst
  rw [hkeep] at hfailN hst
  have hnd1 : NDkeys (pollPhase c s.nodes) :=
    NDkeys_filterMapNodes (pollNode c) s.nodes hnd
  rcases findNode_reconcile_back hnd1 hm2 with ⟨m1, hm1, hrn⟩ | ⟨k, d, hnew⟩
  · have he1 := reconcileNode_failed_back hrn hfailN
    rw [he1] at hfailN hst
    obtain ⟨n0, hn0, hp0⟩ := findNode_filterMapNodes_back (pollNode c)
      s.nodes r m1 hnd hm1
    rcases pollNode_back_failed hp0 hfailN with he0 | ⟨e, hip, hdur, hok, _⟩
    · rw [he0] at hst
      exact ⟨n0, hn0, Or.inl hst⟩
    · exact ⟨n0, hn0, Or.inr ⟨e, hip, hdur, hok⟩⟩
  · rw [hnew] at hst
    exact absurd hst (by simp [newNode])

/-- A successful `update_stack` requires an idle traversal and replaces
the stack by its reconciled successor with the new goal. -/
theorem update_stack_ok {nm : String} {t' : Template} {e e' : Engine} {s : Stack}
    (hf : findStack e nm = some s)
    (h : update_stack nm t' e = Except.ok e') :
    s.active = false ∧
    ∃ s', e' = setStack e nm s'
      ∧ s'.nodes = (reconcile t' s.nodes s.nextIdent).1
      ∧ s'.goalT = t' ∧ s'.destroying = false := by
  unfold update_stack at h
  rw [hf] at h
  simp only at h
  by_cases ha : s.active = true
  · rw [if_pos ha] at h
    exact absurd h (by simp)
  · rw [if_neg ha] at h
    have haf : s.active = false := by
      revert ha
      cases s.active <;> simp
    rcases hv : validateTemplate t' with e0 | u
    · rw [hv] at h
      exact absurd h (by simp)
    · rw [hv] at h
      simp only [Except.ok.injEq] at h
      exact ⟨haf, ⟨_, h.symm, rfl, rfl, rfl⟩⟩

/-- C5: an `update_stack` whose goal template changes only the
properties of one resource `r0` (every other node is COMPLETE and
matches the goal, every other goal resource already has a node) leaves
every other resource node untouched across any number of ticks — same
node (identity, output attributes) and no operation re-dispatched; and
at the plugin level an update with an empty property diff issues no
client call and reports completion immediately. -/
theorem claim_C5_update_frame :
    (∀ (c : Collab) (nm r0 : String) (t' : Template) (e e' : Engine) (s : Stack),
      findStack e nm = some s →
      nodesMatch t' r0 s.nodes = true →
      update_stack nm t' e = Except.ok e' →
      ∀ (k : Nat) (x : String), x ≠ r0 →
        sLookup (advance c nm k e') nm x = sLookup e nm x)
    ∧ (∀ (upd : Except NeutronError Unit) (status : Except NeutronError Bool),
        handle_update [] upd = (Except.ok (), 0)
        ∧ check_update_complete [] status = (Except.ok true, 0)) := by
  constructor
  · intro c nm r0 t' e e' s hf hm hup k x hx
    obtain ⟨hna, s', he', hn', hg', hd'⟩ := update_stack_ok hf hup
    obtain ⟨h3, h4⟩ := nodesMatch_find hm
    have hkeep : ∀ y, y ≠ r0 → findNode s'.nodes y = findNode s.nodes y := by
      intro y hy
      rw [hn']
      exact reconcile_keep t' r0 s.nodes s.nextIdent h3 h4 y hy
    have hf' : findStack e' nm = some s' := by
      rw [he']
      exact findStack_setStack e nm s s' hf
    have hF' : FrameOK t' r0 s' := by
      refine ⟨hg', hd', ?_, ?_⟩
      · intro y hyk hyr
        have hsome : (findNode s'.nodes y).isSome = true :=
          findNode_isSome_iff.mpr hyk
        rw [hkeep y hyr] at hsome
        obtain ⟨n, hn, hc, d, hdf, ha2⟩ :=
          h3 y (findNode_isSome_iff.mp hsome) hyr
        exact ⟨n, by rw [hkeep y hyr]; exact hn, hc, d, hdf, ha2⟩
      · intro p hp hpr
        rw [hkeep p.1 hpr]
        exact h4 p hp hpr
    rw [advance_keep c t' r0 nm k e' s' hf' hF' x hx, hkeep x hx]
    show findNode s.nodes x = sLookup e nm x
    unfold sLookup
    rw [hf]
  · intro upd status
    exact ⟨rfl, rfl⟩

/-- C5 witness: concretely, updating the scenario stack after rollback
with the template that changes only `C.b` leaves node `A` untouched
after three further ticks. -/
theorem claim_C5_update_frame_witness :
    sLookup (advance scnCollab "foo" 3 scnE6) "foo" "A" = sLookup scnE5 "foo" "A"
    ∧ handle_update [] (Except.ok ()) = (Except.ok (), 0) :=
  ⟨claim_C5_update_frame.1 scnCollab "foo" "C" scnT2 scnE5 scnE6 scnS5
      (by rfl) (by rfl) (by rfl) 3 "A" (by decide),
   (claim_C5_update_frame.2 (Except.ok ()) (Except.ok true)).1⟩

/-- C1: for the five-resource scenario template, `create_stack` followed
by enough `advance` steps converges with `C.!a == "initial"`; an update
setting `A.a` to `"updated"`, interrupted after partial convergence
(`A`'s update is in flight) by `rollback_stack` and enough further
steps, returns the stack to `A.a == "initial"` and `C.!a == "initial"`;
a subsequent update changing only `C.b` to `"val2"` converges with `A`
and the other unrelated resources untouched and `C.!a` still
`"initial"`; a final `delete_stack` removes all five nodes and the stack
ceases to exist. -/
theorem claim_C1_scenario :
    exOk (create_stack "foo" scnT0 []) = true
    ∧ (findStack scnE1 "foo").map stackStatus = some StackStatus.completeS
    ∧ attrOf scnE1 "foo" "C" "!a" = some "initial"
    ∧ exOk (update_stack "foo" scnT1 scnE1) = true
    ∧ (findStack scnE3 "foo").bind (fun s => (findNode s.nodes "A").map Node.state)
        = some (NState.inProgress 0)
    ∧ exOk (rollback_stack "foo" scnE3) = true
    ∧ (findStack scnE5 "foo").map stackStatus = some StackStatus.completeS
    ∧ attrOf scnE5 "foo" "A" "a" = some "initial"
    ∧ attrOf scnE5 "foo" "C" "!a" = some "initial"
    ∧ exOk (update_stack "foo" scnT2 scnE5) = true
    ∧ (findStack scnE7 "foo").map stackStatus = some StackStatus.completeS
    ∧ (∀ r ∈ ["A", "B", "D", "E"],
        (findStack scnE5 "foo").bind (fun s => findNode s.nodes r)
          = (findStack scnE7 "foo").bind (fun s => findNode s.nodes r))
    ∧ attrOf scnE7 "foo" "C" "!a" = some "initial"
    ∧ attrOf scnE7 "foo" "C" "b" = some "val2"
    ∧ findStack scnE9 "foo" = none := by
  decide

/-- C6: a missing-resource (`NotFound`) outcome during delete is treated
as success, not failure: `handle_delete` swallows it, and
`check_delete_complete` reports completion whether the status check or
an issued delete request finds the resource already gone — delete is
idempotent. -/
theorem claim_C6_delete_not_found_is_success :
    (∀ rid : Option String,
      (handle_delete rid (Except.error NeutronError.notFound)).1 = Except.ok ())
    ∧ (∀ (r : String) (d1 d2 : Except NeutronError Unit),
      (check_delete_complete (some r) (Except.error NeutronError.notFound) d1 d2).1
        = Except.ok true)
    ∧ (∀ (r : String) (d2 : Except NeutronError Unit),
      (check_delete_complete (some r) (Except.ok true)
        (Except.error NeutronError.notFound) d2).1 = Except.ok true) := by
  refine ⟨fun rid => ?_, fun r d1 d2 => rfl, fun r d2 => rfl⟩
  cases rid <;> rfl

/-- C7: when the status check raises `ResourceInError` — the resource is
in an error state — the poll still issues a delete request rather than
treating the error state as blocking deletion. -/
theorem claim_C7_delete_in_error_state :
    ∀ (r : String) (d1 d2 : Except NeutronError Unit),
      1 ≤ (check_delete_complete (some r)
            (Except.error NeutronError.resourceInError) d1 d2).2 := by
  intro r d1 d2
  cases d1 <;> first
    | exact Nat.le_refl 1
    | rename_i e; cases e <;> exact Nat.le_refl 1

/-- C8 counterexample: in a poll where the resource identity is set, the
status check reports the resource present, and the issued delete request
raises `NotFound`, `check_delete_complete` issues a delete request
(count 1) and nevertheless returns `True` — refuting "in any poll in
which it issues a delete request it returns False". -/
theorem claim_C8_counterexample :
    (check_delete_complete (some "tf") (Except.ok true)
      (Except.error NeutronError.notFound) (Except.ok ())).1 = Except.ok true
    ∧ 1 ≤ (check_delete_complete (some "tf") (Except.ok true)
      (Except.error NeutronError.notFound) (Except.ok ())).2 := by
  exact ⟨rfl, Nat.le_refl 1⟩

/-- C8 (amended): `check_delete_complete` returns `True` exactly when
the resource is observed absent — the stored identity is `None`, or
`NotFound` is raised while checking status or deleting; and in any poll
in which it issues a delete request none of which raises `NotFound`, it
does not report completion (it returns `False`, or propagates the
error), so completion is otherwise confirmed only by a later poll
observing the resource gone. -/
theorem claim_C8_amended_completion :
    (∀ (rid : Option String) (status : Except NeutronError Bool)
       (d1 d2 : Except NeutronError Unit),
      (check_delete_complete rid status d1 d2).1 = Except.ok true ↔
        (rid = none
          ∨ status = Except.error NeutronError.notFound
          ∨ (status = Except.ok true ∧ d1 = Except.error NeutronError.notFound)
          ∨ (status = Except.ok true ∧ d1 = Except.error NeutronError.resourceInError
              ∧ d2 = Except.error NeutronError.notFound)
          ∨ (status = Except.error NeutronError.resourceInError
              ∧ d1 = Except.error NeutronError.notFound)))
    ∧ (∀ (rid : Option String) (status : Except NeutronError Bool)
         (d1 d2 : Except NeutronError Unit),
        1 ≤ (check_delete_complete rid status d1 d2).2 →
        d1 ≠ Except.error NeutronError.notFound →
        d2 ≠ Except.error NeutronError.notFound →
        (check_delete_complete rid status d1 d2).1 ≠ Except.ok true) := by
  constructor
  · intro rid status d1 d2
    rcases rid with _ | r <;>
      rcases status with (_ | _ | m) | (_ | _) <;>
      rcases d1 with (_ | _ | m1) | _ <;>
      rcases d2 with (_ | _ | m2) | _ <;>
      simp [check_delete_complete]
  · intro rid status d1 d2 hcount h1 h2 heq
    rcases rid with _ | r <;>
      rcases status with (_ | _ | m) | (_ | _) <;>
      rcases d1 with (_ | _ | m1) | _ <;>
      rcases d2 with (_ | _ | m2) | _ <;>
      simp_all [check_delete_complete]

/-- C8 amended-claim witness at a concrete poll: identity set, status
check reports the resource present, the issued delete succeeds — the
poll does not report completion. -/
theorem claim_C8_amended_completion_witness :
    (check_delete_complete (some "tf") (Except.ok true)
      (Except.ok ()) (Except.ok ())).1 ≠ Except.ok true
    ∧ ((check_delete_complete (some "tf") (Except.ok false)
      (Except.ok ()) (Except.ok ())).1 = Except.ok true ↔
        ((some "tf" : Option String) = none
          ∨ (Except.ok false : Except NeutronError Bool)
              = Except.error NeutronError.notFound
          ∨ ((Except.ok false : Except NeutronError Bool) = Except.ok true
              ∧ (Except.ok () : Except NeutronError Unit)
                  = Except.error NeutronError.notFound)
          ∨ ((Except.ok false : Except NeutronError Bool) = Except.ok true
              ∧ (Except.ok () : Except NeutronError Unit)
                  = Except.error NeutronError.resourceInError
              ∧ (Except.ok () : Except NeutronError Unit)
                  = Except.error NeutronError.notFound)
          ∨ ((Except.ok false : Except NeutronError Bool)
              = Except.error NeutronError.resourceInError
              ∧ (Except.ok () : Except NeutronError Unit)
                  = Except.error NeutronError.notFound))) :=
  ⟨claim_C8_amended_completion.2 (some "tf") (Except.ok true)
      (Except.ok ()) (Except.ok ()) (Nat.le_refl 1)
      (fun h => Except.noConfusion h) (fun h => Except.noConfusion h),
   claim_C8_amended_completion.1 (some "tf") (Except.ok false)
      (Except.ok ()) (Except.ok ())⟩

/-- C9: deleting a never-created resource (no stored identity) completes
in one poll with no client call: `handle_delete` returns immediately and
`check_delete_complete` reports `True`, both issuing zero requests. -/
theorem claim_C9_delete_never_created :
    ∀ (del : Except NeutronError Unit) (status : Except NeutronError Bool)
      (d1 d2 : Except NeutronError Unit),
      handle_delete none del = (Except.ok (), 0)
      ∧ check_delete_complete none status d1 d2 = (Except.ok true, 0) := by
  intro del status d1 d2
  exact ⟨rfl, rfl⟩

/-- C10: the `direction` property always resolves to one of `IN`, `OUT`,
`BOTH`, defaulting to `BOTH` when not supplied, and `handle_create`
forwards exactly the resolved value as the `direction` field of the
client payload. -/
theorem claim_C10_direction_constrained :
    ∀ (p : TapFlowProps) (tc : List (String × Option String)),
      handle_create_to_client p = Except.ok tc →
      ∃ d, resolve_direction p.direction = Except.ok d
        ∧ d ∈ direction_allowed_values
        ∧ (p.direction = none → d = direction_default)
        ∧ (∀ v, p.direction = some v → d = v)
        ∧ lookupOpt tc "direction" = some (some d) := by
  intro p tc h
  unfold handle_create_to_client at h
  rcases hr : resolve_direction p.direction with e | d
  · rw [hr] at h; exact absurd h (by simp)
  · rw [hr] at h
    refine ⟨d, rfl, ?_, ?_, ?_, ?_⟩
    · rcases hd : p.direction with _ | v
      · rw [hd] at hr
        unfold resolve_direction at hr
        simp at hr
        rw [← hr]
        unfold direction_default direction_allowed_values
        simp
      · rw [hd] at hr
        unfold resolve_direction at hr
        by_cases hv : v ∈ direction_allowed_values
        · simp [hv] at hr; rw [← hr]; exact hv
        · simp [hv] at hr
    · intro hd
      rw [hd] at hr
      unfold resolve_direction at hr
      simp at hr
      exact hr.symm
    · intro v hd
      rw [hd] at hr
      unfold resolve_direction at hr
      by_cases hv : v ∈ direction_allowed_values
      · simp [hv] at hr; exact hr.symm
      · simp [hv] at hr
    · have : tc = [("name", p.name), ("description", p.description),
        ("source_port", some p.port), ("tap_service_id", some p.tapService),
        ("direction", some d)] := by
        injection h with h'
        exact h'.symm
      rw [this]
      simp [lookupOpt]

/-- C3: the scheduler never dispatches a node's operation while one of
its dependency nodes is not COMPLETE, and never dispatches a delete
while a node that depends on the resource still exists — such a node
comes out of the dispatch phase unchanged (still PENDING). -/
theorem claim_C3_dispatch_ordering :
    ∀ (ns : List (String × Node)) (r : String) (n : Node),
      findNode ns r = some n → n.state = NState.pending →
      ((∀ y m, n.op ≠ Op.deleteOp → y ∈ refsOfDef n.goalDef →
          findNode ns y = some m → m.state ≠ NState.complete →
          findNode (dispatchPhase ns) r = some n)
        ∧ (∀ p, n.op = Op.deleteOp → p ∈ ns → blocksDelete r p = true →
          findNode (dispatchPhase ns) r = some n)) := by
  intro ns r n hfind hpend
  have hphase : findNode (dispatchPhase ns) r
      = (findNode ns r).map (dispatchNode ns r) :=
    findNode_mapNodes (dispatchNode ns) ns r
  constructor
  · intro y m hop hy hfy hnc
    have hready : readyToDispatch ns r n = false := by
      unfold readyToDispatch
      rcases hopc : n.op with _ | _ | _
      · unfold depsComplete
        rw [List.all_eq_false]
        refine ⟨y, hy, ?_⟩
        rw [hfy]
        simp [hnc]
      · unfold depsComplete
        rw [List.all_eq_false]
        refine ⟨y, hy, ?_⟩
        rw [hfy]
        simp [hnc]
      · exact absurd hopc hop
    rw [hphase, hfind]
    simp only [Option.map_some']
    unfold dispatchNode
    rw [hready]
    simp
  · intro p hop hp hblock
    have hready : readyToDispatch ns r n = false := by
      unfold readyToDispatch
      rw [hop]
      unfold deleteReady
      have : ns.any (blocksDelete r) = true :=
        List.any_eq_true.mpr ⟨p, hp, hblock⟩
      rw [this]
      rfl
    rw [hphase, hfind]
    simp only [Option.map_some']
    unfold dispatchNode
    rw [hready]
    simp

/-- C3 witness: concretely, pending `C` (whose definition references the
pending node `A`) is not dispatched, and pending-delete `C` is not
dispatched while the node `D`, which references `C`, still exists. -/
theorem claim_C3_dispatch_ordering_witness :
    findNode (dispatchPhase wNs1) "C" = some wNodeC
    ∧ findNode (dispatchPhase wNs2) "C" = some wNodeCDel :=
  ⟨(claim_C3_dispatch_ordering wNs1 "C" wNodeC (by decide) (by decide)).1
      "A" wNodeA (by decide) (by decide) (by decide) (by decide),
   (claim_C3_dispatch_ordering wNs2 "C" wNodeCDel (by decide) (by decide)).2
      ("D", wNodeD) (by decide) (by decide) (by decide)⟩

/-! ### Dispatch bookkeeping invariant and failure propagation (C4) -/

theorem nodeInv_newNode (k : Nat) (d : RsrcDef) : nodeInv (newNode k d) :=
  ⟨fun _ => rfl, fun _ => rfl⟩

/-- Polling preserves the dispatch bookkeeping invariant. -/
theorem pollNode_inv {c : Collab} {r : String} {n m : Node}
    (hi : nodeInv n) (h : pollNode c r n = some m) : nodeInv m := by
  unfold pollNode at h
  rcases hns : n.state with _ | e | _ | rs <;> rw [hns] at h
  · have h2 : some n = some m := h
    injection h2 with h'
    exact h' ▸ hi
  · have h2 : (if c.dur r n.op ≤ e + 1 then
        (if c.okOp r n.op = true then
          (match n.op with
            | Op.deleteOp => none
            | _ => some { n with state := NState.complete, applied := some n.goalDef, attrs := n.resolvedP })
          else some { n with state := NState.failed FailReason.collabErr })
        else some { n with state := NState.inProgress (e + 1) }) = some m := h
    by_cases hdur : c.dur r n.op ≤ e + 1
    · rw [if_pos hdur] at h2
      by_cases hok : c.okOp r n.op = true
      · rw [if_pos hok] at h2
        rcases hop : n.op with _ | _ | _ <;> rw [hop] at h2
        · injection h2 with h'
          constructor <;> intro hx <;> rw [← h'] at hx <;> exact absurd hx (by simp)
        · injection h2 with h'
          constructor <;> intro hx <;> rw [← h'] at hx <;> exact absurd hx (by simp)
        · exact absurd h2 (by simp)
      · rw [if_neg hok] at h2
        injection h2 with h'
        constructor <;> intro hx <;> rw [← h'] at hx <;> exact absurd hx (by simp)
    · rw [if_neg hdur] at h2
      injection h2 with h'
      constructor <;> intro hx <;> rw [← h'] at hx <;> exact absurd hx (by simp)
  · have h2 : some n = some m := h
    injection h2 with h'
    exact h' ▸ hi
  · have h2 : some n = some m := h
    injection h2 with h'
    exact h' ▸ hi

/-- Reconciliation preserves the dispatch bookkeeping invariant. -/
theorem reconcileNode_inv {gd : Option RsrcDef} {n m : Node}
    (hi : nodeInv n) (h : reconcileNode gd n = some m) : nodeInv m := by
  unfold reconcileNode at h
  rcases gd with _ | d
  · rcases hns : n.state with _ | e | _ | rs <;> rw [hns] at h
    · have h2 : (if n.applied = none then none
          else some { n with state := NState.pending, op := Op.deleteOp, dispatched := false }) = some m := h
      by_cases hap : n.applied = none
      · rw [if_pos hap] at h2
        exact absurd h2 (by simp)
      · rw [if_neg hap] at h2
        injection h2 with h'
        rw [← h']
        exact ⟨fun _ => rfl, fun _ => rfl⟩
    · have h2 : some n = some m := h
      injection h2 with h'
      exact h' ▸ hi
    · have h2 : some { n with state := NState.pending, op := Op.deleteOp, dispatched := false } = some m := h
      injection h2 with h'
      rw [← h']
      exact ⟨fun _ => rfl, fun _ => rfl⟩
    · have h2 : some n = some m := h
      injection h2 with h'
      exact h' ▸ hi
  · rcases hns : n.state with _ | e | _ | rs <;> rw [hns] at h
    · have h2 : (if n.applied = some d then
          some { n with state := NState.complete, goalDef := d }
        else
          some { n with goalDef := d, op := if n.applied = none then Op.createOp else Op.updateOp, state := NState.pending, dispatched := false }) = some m := h
      by_cases hap : n.applied = some d
      · rw [if_pos hap] at h2
        injection h2 with h'
        rw [← h']
        constructor <;> intro hx <;> exact absurd hx (by simp)
      · rw [if_neg hap] at h2
        injection h2 with h'
        rw [← h']
        exact ⟨fun _ => rfl, fun _ => rfl⟩
    · have h2 : some n = some m := h
      injection h2 with h'
      exact h' ▸ hi
    · have h2 : (if n.applied = some d then some n
        else some { n with state := NState.pending, op := Op.updateOp, goalDef := d, dispatched := false }) = some m := h
      by_cases hap : n.applied = some d
      · rw [if_pos hap] at h2
        injection h2 with h'
        exact h' ▸ hi
      · rw [if_neg hap] at h2
        injection h2 with h'
        rw [← h']
        exact ⟨fun _ => rfl, fun _ => rfl⟩
    · have h2 : some n = some m := h
      injection h2 with h'
      exact h' ▸ hi

/-- Failure marking preserves the invariant: a node is only marked
while PENDING, when its operation has not been dispatched. -/
theorem markNode_inv {dm : List String} {r : String} {n : Node}
    (hi : nodeInv n) : nodeInv (markNode dm r n) := by
  unfold markNode
  by_cases hc : (n.state = NState.pending && memS dm r) = true
  · rw [if_pos hc]
    rw [Bool.and_eq_true] at hc
    have hp : n.state = NState.pending := of_decide_eq_true hc.1
    refine ⟨?_, ?_⟩
    · intro hx
      exact absurd hx (by simp)
    · intro _
      show n.dispatched = false
      exact hi.1 hp
  · rw [if_neg hc]
    exact hi

/-- Dispatching preserves the invariant (the dispatched node leaves
PENDING). -/
theorem dispatchNode_inv {ns : List (String × Node)} {r : String} {n : Node}
    (hi : nodeInv n) : nodeInv (dispatchNode ns r n) := by
  unfold dispatchNode
  by_cases hc : (n.state = NState.pending && readyToDispatch ns r n) = true
  · rw [if_pos hc]
    constructor <;> intro hx <;> exact absurd hx (by simp)
  · rw [if_neg hc]
    exact hi

/-- Rollback's failure reset preserves the invariant. -/
theorem resetFailedNode_inv {n m : Node} (hi : nodeInv n)
    (h : resetFailedNode n = some m) : nodeInv m := by
  unfold resetFailedNode at h
  rcases hns : n.state with _ | e | _ | rs <;> rw [hns] at h
  · have h2 : some n = some m := h
    injection h2 with h'
    exact h' ▸ hi
  · have h2 : some n = some m := h
    injection h2 with h'
    exact h' ▸ hi
  · have h2 : some n = some m := h
    injection h2 with h'
    exact h' ▸ hi
  · have h2 : (match n.applied with
      | none => none
      | some _ => some { n with state := NState.pending, op := Op.updateOp, dispatched := false }) = some m := h
    rcases hap : n.applied with _ | d <;> rw [hap] at h2
    · exact absurd h2 (by simp)
    · injection h2 with h'
      rw [← h']
      exact ⟨fun _ => rfl, fun _ => rfl⟩

theorem pollPhase_inv {c : Collab} {ns : List (String × Node)}
    (hnd : NDkeys ns) (hi : NodesInv ns) : NodesInv (pollPhase c ns) := by
  intro r n' h
  obtain ⟨n, hn, hp⟩ := findNode_filterMapNodes_back (pollNode c) ns r n' hnd h
  exact pollNode_inv (hi r n hn) hp

theorem reconcile_inv {goal : Template} {ns : List (String × Node)} {next : Nat}
    (hnd : NDkeys ns) (hi : NodesInv ns) :
    NodesInv (reconcile goal ns next).1 := by
  intro r n' h
  rcases findNode_reconcile_back hnd h with ⟨n, hn, hrn⟩ | ⟨k, d, hnew⟩
  · exact reconcileNode_inv (hi r n hn) hrn
  · rw [hnew]
    exact nodeInv_newNode k d

theorem propagate_inv {ns : List (String × Node)} (hi : NodesInv ns) :
    NodesInv (propagate ns) := by
  intro r n' h
  obtain ⟨n, hn, he⟩ := findNode_propagate_some h
  rw [he]
  exact markNode_inv (hi r n hn)

theorem dispatchPhase_inv {ns : List (String × Node)} (hi : NodesInv ns) :
    NodesInv (dispatchPhase ns) := by
  intro r n' h
  obtain ⟨n, hn, he⟩ := findNode_dispatchPhase_some h
  rw [he]
  exact dispatchNode_inv (hi r n hn)

theorem resetFailed_inv {ns : List (String × Node)} (hnd : NDkeys ns)
    (hi : NodesInv ns) : NodesInv (resetFailed ns) := by
  intro r n' h
  obtain ⟨n, hn, hp⟩ := findNode_filterMapNodes_back
    (fun _ m => resetFailedNode m) ns r n' hnd h
  exact resetFailedNode_inv (hi r n hn) hp

theorem NDkeys_reconcile (goal : Template) (ns : List (String × Node)) (next : Nat)
    (hnd : NDkeys ns) : NDkeys (reconcile goal ns next).1 := by
  unfold reconcile
  exact NDkeys_addMissing goal.resources _ next
    (NDkeys_filterMapNodes (fun y m => reconcileNode (Template.find goal y) m) ns hnd)

theorem NDkeys_propagate (ns : List (String × Node)) (hnd : NDkeys ns) :
    NDkeys (propagate ns) :=
  NDkeys_mapNodes (fun y m => markNode (doomed ns) y m) ns hnd

theorem NDkeys_dispatchPhase (ns : List (String × Node)) (hnd : NDkeys ns) :
    NDkeys (dispatchPhase ns) :=
  NDkeys_mapNodes (fun y m => dispatchNode ns y m) ns hnd

/-- The four-phase pipeline of a tick preserves key uniqueness and the
dispatch bookkeeping invariant. -/
theorem pipeline_inv (c : Collab) (goal : Template) (ns : List (String × Node))
    (next : Nat) (hnd : NDkeys ns) (hi : NodesInv ns) :
    NDkeys (dispatchPhase (propagate (reconcile goal (pollPhase c ns) next).1))
    ∧ NodesInv (dispatchPhase (propagate (reconcile goal (pollPhase c ns) next).1)) := by
  have hnd1 : NDkeys (pollPhase c ns) := NDkeys_filterMapNodes (pollNode c) ns hnd
  have hi1 : NodesInv (pollPhase c ns) := pollPhase_inv hnd hi
  have hnd2 := NDkeys_reconcile goal (pollPhase c ns) next hnd1
  have hi2 := @reconcile_inv goal (pollPhase c ns) next hnd1 hi1
  have hnd3 := NDkeys_propagate _ hnd2
  have hi3 := propagate_inv hi2
  exact ⟨NDkeys_dispatchPhase _ hnd3, dispatchPhase_inv hi3⟩

/-- A tick that keeps the stack preserves the stack invariant. -/
theorem tickStack_inv (c : Collab) (s : Stack) (hnd : NDkeys s.nodes)
    (hi : NodesInv s.nodes) (hrm : (tickStack c s).2 = false) :
    NDkeys (tickStack c s).1.nodes ∧ NodesInv (tickStack c s).1.nodes := by
  rw [tickStack_nodes_of_kept c s hrm]
  by_cases ha : s.active = true
  · rw [if_pos ha]
    exact pipeline_inv c s.goalT s.nodes s.nextIdent hnd hi
  · rw [if_neg ha]
    exact ⟨hnd, hi⟩

theorem findStack_mem_keys {e : Engine} {x : String} {s : Stack} :
    findStack e x = some s → x ∈ e.map Prod.fst := by
  induction e with
  | nil => intro h; exact absurd h (by simp [findStack])
  | cons p rest ih =>
    intro h
    unfold findStack at h
    rw [List.map_cons]
    by_cases hp : p.1 = x
    · exact List.mem_cons.mpr (Or.inl hp.symm)
    · rw [if_neg hp] at h
      exact List.mem_cons.mpr (Or.inr (ih h))

theorem findStack_none_not_mem {e : Engine} {x : String} :
    findStack e x = none → x ∉ e.map Prod.fst := by
  induction e with
  | nil => intro _ hm; exact absurd hm (List.not_mem_nil x)
  | cons p rest ih =>
    intro h hm
    unfold findStack at h
    rw [List.map_cons] at hm
    by_cases hp : p.1 = x
    · rw [if_pos hp] at h
      exact absurd h (by simp)
    · rw [if_neg hp] at h
      rcases List.mem_cons.mp hm with he | hm'
      · exact hp he.symm
      · exact ih h hm'

theorem keys_setStack (e : Engine) (nm : String) (s' : Stack) :
    (setStack e nm s').map Prod.fst = e.map Prod.fst := by
  induction e with
  | nil => rfl
  | cons p rest ih =>
    unfold setStack
    by_cases hp : p.1 = nm
    · rw [if_pos hp]
      rw [List.map_cons, List.map_cons, hp]
    · rw [if_neg hp]
      rw [List.map_cons, List.map_cons, ih]

theorem findStack_setStack_back {e : Engine} {nm x : String} {s' s2 : Stack} :
    findStack (setStack e nm s') x = some s2 →
    s2 = s' ∨ findStack e x = some s2 := by
  induction e with
  | nil => intro h; exact absurd h (by simp [setStack, findStack])
  | cons p rest ih =>
    intro h
    unfold setStack at h
    by_cases hp : p.1 = nm
    · rw [if_pos hp] at h
      have h2 : (if nm = x then some s' else findStack rest x) = some s2 := h
      by_cases hx : nm = x
      · rw [if_pos hx] at h2
        injection h2 with h3
        exact Or.inl h3.symm
      · rw [if_neg hx] at h2
        right
        unfold findStack
        rw [if_neg (fun hc => hx (hp ▸ hc))]
        exact h2
    · rw [if_neg hp] at h
      have h2 : (if p.1 = x then some p.2
          else findStack (setStack rest nm s') x) = some s2 := h
      by_cases hx : p.1 = x
      · rw [if_pos hx] at h2
        right
        unfold findStack
        rw [if_pos hx]
        exact h2
      · rw [if_neg hx] at h2
        rcases ih h2 with h3 | h3
        · exact Or.inl h3
        · right
          unfold findStack
          rw [if_neg hx]
          exact h3

theorem findStack_append_back {e more : Engine} {x : String} {s2 : Stack} :
    findStack (e ++ more) x = some s2 →
    findStack e x = some s2
    ∨ (findStack e x = none ∧ findStack more x = some s2) := by
  induction e with
  | nil => intro h; exact Or.inr ⟨rfl, h⟩
  | cons p rest ih =>
    intro h
    rw [List.cons_append] at h
    by_cases hp : p.1 = x
    · left
      unfold findStack at h ⊢
      rw [if_pos hp] at h ⊢
      exact h
    · have h' : findStack (rest ++ more) x = some s2 := by
        unfold findStack at h
        rw [if_neg hp] at h
        exact h
      rcases ih h' with h1 | ⟨h1, h2⟩
      · left
        unfold findStack
        rw [if_neg hp]
        exact h1
      · right
        refine ⟨?_, h2⟩
        unfold findStack
        rw [if_neg hp]
        exact h1

theorem keys_removeStack_sublist (e : Engine) (nm : String) :
    ((removeStack e nm).map Prod.fst).Sublist (e.map Prod.fst) := by
  induction e with
  | nil => exact List.Sublist.refl []
  | cons p rest ih =>
    unfold removeStack
    by_cases hp : p.1 = nm
    · rw [if_pos hp, List.map_cons]
      exact List.Sublist.cons p.1 (List.Sublist.refl _)
    · rw [if_neg hp, List.map_cons, List.map_cons]
      exact List.Sublist.cons₂ p.1 ih

theorem findStack_removeStack_back {nm x : String} {s2 : Stack} :
    ∀ {e : Engine}, (e.map Prod.fst).Nodup →
      findStack (removeStack e nm) x = some s2 → findStack e x = some s2 := by
  intro e
  induction e with
  | nil => intro _ h; exact absurd h (by simp [removeStack, findStack])
  | cons p rest ih =>
    intro hnd h
    rw [List.map_cons] at hnd
    have hpnot : p.1 ∉ rest.map Prod.fst := (List.nodup_cons.mp hnd).1
    have hnd' : (rest.map Prod.fst).Nodup := (List.nodup_cons.mp hnd).2
    unfold removeStack at h
    by_cases hp : p.1 = nm
    · rw [if_pos hp] at h
      unfold findStack
      by_cases hx : p.1 = x
      · exfalso
        have hxm : x ∈ rest.map Prod.fst := findStack_mem_keys h
        rw [← hx] at hxm
        exact hpnot hxm
      · rw [if_neg hx]
        exact h
    · rw [if_neg hp] at h
      have h2 : (if p.1 = x then some p.2
          else findStack (removeStack rest nm) x) = some s2 := h
      unfold findStack
      by_cases hx : p.1 = x
      · rw [if_pos hx] at h2 ⊢
        exact h2
      · rw [if_neg hx] at h2 ⊢
        exact ih hnd' h2

/-- Replacing a stack preserves the engine invariant when the new stack
satisfies its own. -/
theorem EInv_setStack {e : Engine} {nm : String} {s' : Stack}
    (h : EInv e) (hs' : StackInv s') : EInv (setStack e nm s') := by
  refine ⟨?_, ?_⟩
  · rw [keys_setStack]
    exact h.1
  · intro x s2 hfs
    rcases findStack_setStack_back hfs with he | hb
    · rw [he]
      exact hs'
    · exact h.2 x s2 hb

/-- A successful `create_stack` requires the name to be fresh and
appends the reconciled initial stack. -/
theorem create_stack_ok {nm : String} {t : Template} {e e' : Engine}
    (h : create_stack nm t e = Except.ok e') :
    findStack e nm = none ∧ e' = e ++ [(nm,
      { nodes := (reconcile t [] 0).1
        current := none
        goalT := t
        active := true
        destroying := false
        nextIdent := (reconcile t [] 0).2 })] := by
  unfold create_stack at h
  rcases hf : findStack e nm with _ | s
  · rw [hf] at h
    rcases hv : validateTemplate t with e0 | u
    · rw [hv] at h
      exact absurd h (by simp)
    · rw [hv] at h
      simp only [Except.ok.injEq] at h
      exact ⟨rfl, h.symm⟩
  · rw [hf] at h
    exact absurd h (by simp)

/-- A successful `rollback_stack` retargets the stack at its current
template with failures reset. -/
theorem rollback_stack_ok {nm : String} {e e' : Engine} {s : Stack}
    (hf : findStack e nm = some s)
    (h : rollback_stack nm e = Except.ok e') :
    ∃ tg, s.current = some tg ∧
      e' = setStack e nm
        { s with
          nodes := (reconcile tg (resetFailed s.nodes) s.nextIdent).1
          nextIdent := (reconcile tg (resetFailed s.nodes) s.nextIdent).2
          goalT := tg
          active := true
          destroying := false } := by
  unfold rollback_stack at h
  rw [hf] at h
  simp only at h
  rcases hc : s.current with _ | tg
  · rw [hc] at h
    simp only at h
    exact absurd h (by simp)
  · rw [hc] at h
    simp only at h
    by_cases hcond : (s.active || anyFailed s.nodes) = true
    · rw [if_pos hcond] at h
      simp only [Except.ok.injEq] at h
      exact ⟨tg, rfl, h.symm⟩
    · rw [if_neg hcond] at h
      exact absurd h (by simp)

theorem create_stack_einv {nm : String} {t : Template} {e e' : Engine}
    (hi : EInv e) (h : create_stack nm t e = Except.ok e') : EInv e' := by
  obtain ⟨hnone, he⟩ := create_stack_ok h
  rw [he]
  refine ⟨?_, ?_⟩
  · rw [List.map_append, List.nodup_append]
    refine ⟨hi.1, by simp, ?_⟩
    intro a ha hb
    have haq : a = nm := by simpa using hb
    rw [haq] at ha
    exact findStack_none_not_mem hnone ha
  · intro x s2 hfs
    rcases findStack_append_back hfs with h1 | ⟨h1, h2⟩
    · exact hi.2 x s2 h1
    · have h3 : (if nm = x then some
          ({ nodes := (reconcile t [] 0).1
             current := none
             goalT := t
             active := true
             destroying := false
             nextIdent := (reconcile t [] 0).2 } : Stack) else none) = some s2 := h2
      by_cases hx : nm = x
      · rw [if_pos hx] at h3
        injection h3 with h4
        rw [← h4]
        refine ⟨?_, ?_⟩
        · exact NDkeys_reconcile t [] 0 List.nodup_nil
        · intro r n hr
          exact @reconcile_inv t [] 0 List.nodup_nil
            (fun r0 n0 hr0 => absurd hr0 (by simp [findNode])) r n hr
      · rw [if_neg hx] at h3
        exact absurd h3 (by simp)

theorem update_stack_einv {nm : String} {t : Template} {e e' : Engine}
    (hi : EInv e) (h : update_stack nm t e = Except.ok e') : EInv e' := by
  rcases hf : findStack e nm with _ | s
  · exfalso
    unfold update_stack at h
    rw [hf] at h
    exact absurd h (by simp)
  · obtain ⟨ha, s', he, hnodes, _, _⟩ := update_stack_ok hf h
    rw [he]
    refine EInv_setStack hi ?_
    have hs := hi.2 nm s hf
    refine ⟨?_, ?_⟩
    · rw [hnodes]
      exact NDkeys_reconcile t s.nodes s.nextIdent hs.1
    · intro r n hr
      rw [hnodes] at hr
      exact reconcile_inv hs.1 hs.2 r n hr

theorem rollback_stack_einv {nm : String} {e e' : Engine}
    (hi : EInv e) (h : rollback_stack nm e = Except.ok e') : EInv e' := by
  rcases hf : findStack e nm with _ | s
  · exfalso
    unfold rollback_stack at h
    rw [hf] at h
    exact absurd h (by simp)
  · obtain ⟨tg, hc, he⟩ := rollback_stack_ok hf h
    rw [he]
    refine EInv_setStack hi ?_
    have hs := hi.2 nm s hf
    have hndr : NDkeys (resetFailed s.nodes) :=
      NDkeys_filterMapNodes (fun y m => resetFailedNode m) s.nodes hs.1
    have hir : NodesInv (resetFailed s.nodes) := resetFailed_inv hs.1 hs.2
    refine ⟨?_, ?_⟩
    · exact NDkeys_reconcile tg (resetFailed s.nodes) s.nextIdent hndr
    · intro r n hr
      exact reconcile_inv hndr hir r n hr

theorem delete_stack_einv (nm : String) {e : Engine} (hi : EInv e) :
    EInv (delete_stack nm e) := by
  unfold delete_stack
  rcases hf : findStack e nm with _ | s
  · exact hi
  · refine EInv_setStack hi ?_
    have hs := hi.2 nm s hf
    refine ⟨?_, ?_⟩
    · exact NDkeys_reconcile (Template.mk []) s.nodes s.nextIdent hs.1
    · intro r n hr
      exact reconcile_inv hs.1 hs.2 r n hr

theorem tickEngine_einv (c : Collab) (nm : String) {e : Engine}
    (hi : EInv e) : EInv (tickEngine c nm e) := by
  unfold tickEngine
  rcases hf : findStack e nm with _ | s
  · exact hi
  · have hs := hi.2 nm s hf
    show EInv (match tickStack c s with
      | (s', false) => setStack e nm s'
      | (_, true) => removeStack e nm)
    rcases hts : tickStack c s with ⟨s', b⟩
    rcases b
    · show EInv (setStack e nm s')
      refine EInv_setStack hi ?_
      have hkept : (tickStack c s).2 = false := by rw [hts]
      have hinv := tickStack_inv c s hs.1 hs.2 hkept
      rw [hts] at hinv
      exact hinv
    · show EInv (removeStack e nm)
      refine ⟨?_, ?_⟩
      · exact List.Nodup.sublist (keys_removeStack_sublist e nm) hi.1
      · intro x s2 hfs
        exact hi.2 x s2 (findStack_removeStack_back hi.1 hfs)

/-- Every engine state reachable through the driving interface
satisfies the engine invariant. -/
theorem reach_einv {c : Collab} {e : Engine} (h : Reach c e) : EInv e := by
  induction h with
  | init => exact ⟨List.nodup_nil, fun nm s hf => absurd hf (by simp [findStack])⟩
  | createS hr hc ih => exact create_stack_einv ih hc
  | updateS hr hc ih => exact update_stack_einv ih hc
  | rollbackS hr hc ih => exact rollback_stack_einv ih hc
  | deleteS hr ih => exact delete_stack_einv _ ih
  | tickS hr ih => exact tickEngine_einv _ _ ih

theorem wf_create_ok : create_stack "bar" wfT [] = Except.ok wfE0 := by rfl

/-- C4: a FAILED node immediately fails every PENDING transitive
dependent with `DependencyFailedError` and their operations are never
dispatched — after any tick no PENDING node still depends on a FAILED
one, in every reachable engine state a PENDING or dependency-failed
node has never had its operation dispatched, and every
dependency-failure produced by a tick either pre-existed or belongs to
a transitive dependent of a failed node; a collaborator error fails
only the originating node (every collaborator-failure traces back to
that node's own IN_PROGRESS operation being reported failed), any
failure makes the stack status FAILED, and a FAILED node is never
retried by the core (it survives every further tick unchanged). -/
theorem claim_C4_failure_propagation :
    (∀ (c : Collab) (s : Stack), s.active = true → (tickStack c s).2 = false →
      ∀ x f nx nf,
        findNode (tickStack c s).1.nodes x = some nx →
        nx.state = NState.pending →
        findNode (tickStack c s).1.nodes f = some nf →
        isFailedN nf = true →
        ¬ TransDep (tickStack c s).1.nodes x f)
  ∧ (∀ (c : Collab) (e : Engine), Reach c e →
      ∀ nm s, findStack e nm = some s →
      ∀ r n, findNode s.nodes r = some n →
        (n.state = NState.pending → n.dispatched = false) ∧
        (n.state = NState.failed FailReason.depFailed → n.dispatched = false))
  ∧ (∀ (c : Collab) (s : Stack), NDkeys s.nodes → (tickStack c s).2 = false →
      ∀ r n', findNode (tickStack c s).1.nodes r = some n' →
        n'.state = NState.failed FailReason.depFailed →
        (∃ n0, findNode s.nodes r = some n0
          ∧ n0.state = NState.failed FailReason.depFailed)
        ∨ (∃ f nf, findNode (tickStack c s).1.nodes f = some nf
            ∧ isFailedN nf = true ∧ TransDep (tickStack c s).1.nodes r f))
  ∧ (∀ (c : Collab) (s : Stack), NDkeys s.nodes → (tickStack c s).2 = false →
      ∀ r n', findNode (tickStack c s).1.nodes r = some n' →
        n'.state = NState.failed FailReason.collabErr →
        ∃ n0, findNode s.nodes r = some n0
          ∧ (n0.state = NState.failed FailReason.collabErr
            ∨ ∃ k, n0.state = NState.inProgress k ∧ c.dur r n0.op ≤ k + 1
                ∧ c.okOp r n0.op = false))
  ∧ (∀ s : Stack, anyFailed s.nodes = true → stackStatus s = StackStatus.failedS)
  ∧ (∀ (c : Collab) (s : Stack) (r : String) (n : Node),
      findNode s.nodes r = some n → isFailedN n = true →
      (tickStack c s).2 = false →
      findNode (tickStack c s).1.nodes r = some n) := by
  refine ⟨?_, ?_, ?_, ?_, ?_, ?_⟩
  · intro c s ha hrm x f nx nf hx hp hf hfl
    rw [tickStack_nodes_of_kept c s hrm, if_pos ha] at hx hf ⊢
    exact pipeline_no_pending_on_failed _ x f nx nf hx hp hf hfl
  · intro c e hre nm s hfs r n hfn
    exact ((reach_einv hre).2 nm s hfs).2 r n hfn
  · intro c s hnd hrm r n' hr hst
    exact tick_depFailed_origin c s hnd hrm r n' hr hst
  · intro c s hnd hrm r n' hr hst
    exact tick_collabFailed_origin c s hnd hrm r n' hr hst
  · intro s h
    unfold stackStatus
    rw [if_pos h]
  · intro c s r n hn hfl hrm
    exact tickStack_keeps_failed c s r n hn hfl hrm

/-- Witness for C4 on the concrete failing scenario: `A` fails by
collaborator report, `C` (depending on `A`) is failed as a dependent
without dispatch, `E` (depending on the slow `B`) stays PENDING with no
path to `A`, the stack status is FAILED, and the failed `A` node
survives the next tick unchanged. -/
theorem claim_C4_failure_propagation_witness :
    (¬ TransDep (tickStack wfCollab wfS1).1.nodes "E" "A")
  ∧ wfNC.dispatched = false
  ∧ ((∃ n0, findNode wfS1.nodes "C" = some n0
        ∧ n0.state = NState.failed FailReason.depFailed)
      ∨ (∃ f nf, findNode (tickStack wfCollab wfS1).1.nodes f = some nf
          ∧ isFailedN nf = true
          ∧ TransDep (tickStack wfCollab wfS1).1.nodes "C" f))
  ∧ (∃ n0, findNode wfS1.nodes "A" = some n0
      ∧ (n0.state = NState.failed FailReason.collabErr
        ∨ ∃ k, n0.state = NState.inProgress k ∧ wfCollab.dur "A" n0.op ≤ k + 1
            ∧ wfCollab.okOp "A" n0.op = false))
  ∧ stackStatus wfS2 = StackStatus.failedS
  ∧ findNode (tickStack wfCollab wfS2).1.nodes "A" = some wfNA := by
  refine ⟨?_, ?_, ?_, ?_, ?_, ?_⟩
  · exact claim_C4_failure_propagation.1 wfCollab wfS1 (by decide) (by decide)
      "E" "A" wfNE wfNA (by decide) (by decide) (by decide) (by decide)
  · exact (claim_C4_failure_propagation.2.1 wfCollab wfE2
      (Reach.tickS (Reach.tickS (Reach.createS Reach.init wf_create_ok)))
      "bar" wfS2 (by decide) "C" wfNC (by decide)).2 (by decide)
  · exact claim_C4_failure_propagation.2.2.1 wfCollab wfS1
      (by unfold NDkeys; decide) (by decide) "C" wfNC (by decide) (by decide)
  · exact claim_C4_failure_propagation.2.2.2.1 wfCollab wfS1
      (by unfold NDkeys; decide) (by decide) "A" wfNA (by decide) (by decide)
  · exact claim_C4_failure_propagation.2.2.2.2.1 wfS2 (by decide)
  · exact claim_C4_failure_propagation.2.2.2.2.2 wfCollab wfS2 "A" wfNA
      (by decide) (by decide) (by decide)

/-- C10 witness: for a definition supplying no `direction`, the resolved
value is the default `BOTH` and it is forwarded to the client. -/
theorem claim_C10_direction_constrained_witness :
    ∃ d, resolve_direction none = Except.ok d
      ∧ d ∈ direction_allowed_values
      ∧ ((none : Option String) = none → d = direction_default)
      ∧ (∀ v, (none : Option String) = some v → d = v)
      ∧ lookupOpt [("name", none), ("description", none),
          ("source_port", some "p1"), ("tap_service_id", some "ts1"),
          ("direction", some "BOTH")] "direction" = some (some d) :=
  claim_C10_direction_constrained
    ⟨none, none, "p1", "ts1", none⟩
    [("name", none), ("description", none), ("source_port", some "p1"),
      ("tap_service_id", some "ts1"), ("direction", some "BOTH")]
    (by rfl)

end Heat
